import Mathlib

/-!
Verification of the action-resolution and execution engine of `pygrate`
(`pygrate/migrate.py`, `pygrate/common.py`).

Paths are modelled as lists of name segments (a `pathlib.Path` with its
anchor stripped); the filesystem is a finite tree of named entries.  The
`Action` class, the encapsulation resolver `_convert_encapsulated_actions`,
the priority sort `_prioritize_actions`, and the executor
`Action.perform` / `perform_actions` are embedded as executable functions.
Exceptions raised by the Python code are modelled with an explicit error
type; `Action.perform` threads the filesystem state and is fuelled, since
its recursion is not structurally decreasing.
-/

namespace Pygrate

/-- `pygrate.common.SourceAction`: the closed enumeration of action kinds. -/
inductive SourceAction where
  | notDefined
  | ignore
  | copy
  | move
  | delete
deriving DecidableEq, Repr

/-- A filesystem path, as its list of name segments (root/anchor = `[]`). -/
abbrev SPath := List String

/-- `pathlib.PurePath.parents`: the proper ancestors of a path, nearest
first, ending with the root `[]`.  `parentsOf [a,b,c] = [[a,b],[a],[]]`. -/
def parentsOf (p : SPath) : List SPath :=
  (List.range p.length).reverse.map (fun k => p.take k)

/-- The final segment of a path (`pathlib.PurePath.name`; `""` at the root). -/
def lastName (p : SPath) : String :=
  p.getLast?.getD ""

/-- Index (from the front) of the last `'.'` in a list of characters, or
the length of the list if there is none. -/
def lastDotIdx (cs : List Char) : Nat :=
  match cs.reverse.indexOf '.' with
  | k => if '.' ∈ cs then cs.length - 1 - k else cs.length

/-- `bool(PurePath(...).suffix)` for a single name: pathlib gives a
nonempty suffix iff the name has a `'.'` at a position `i` with
`0 < i < len - 1` (taking the last dot). -/
def nameHasSuffix (name : String) : Bool :=
  let cs := name.toList
  if '.' ∈ cs then
    let j := lastDotIdx cs
    decide (0 < j) && decide (j + 1 < cs.length)
  else false

/-- `str.lower()` (structural, so that concrete runs reduce in the
kernel). -/
def strLower (s : String) : String :=
  String.mk (s.data.map Char.toLower)

/-- `bool(target.suffix)` on an optional target path. -/
def targetHasSuffix : Option SPath → Bool
  | none => false
  | some t => nameHasSuffix (lastName t)

/-- Errors: the exceptions raised by `pygrate.migrate`, plus the
filesystem-level exceptions of the underlying `os`/`shutil` calls, plus
fuel exhaustion of the fuelled interpreter. -/
inductive Err where
  /-- `ValueError` from `Action.__init__` / `Action.ignore_sub_folder`. -/
  | invalidArg
  /-- `IOError('Target exists: ...')` from `Action._migrate`. -/
  | targetExists
  /-- `IOError('Cannot migrate a directory to a file: ...')`. -/
  | dirToFile
  /-- `ValueError('Action not defined')` from `Action.perform`. -/
  | notDefined
  /-- A read of a source path that no longer exists (`FileNotFoundError`
  from `iterdir`/`rmtree`/`copytree`/`move` on a missing source). -/
  | sourceMissing
  /-- Any other error raised by a mutating filesystem call
  (`mkdir`, `copytree` on an existing destination, `move` collision,
  `rmdir` of a non-empty directory, ...). -/
  | fsError
  /-- Fuel exhaustion of the fuelled executor (not a Python error). -/
  | outOfFuel
deriving DecidableEq, Repr

/-- The `Action` class of `pygrate.migrate`: kind, source path, optional
target path, priority, the derived `_target_is_file` flag and the
`_ignore_sub_folders` exclusion list. -/
structure Action where
  action : SourceAction
  source : SPath
  target : Option SPath
  priority : Nat
  targetIsFile : Bool
  ignoreSubFolders : List SPath
deriving DecidableEq, Repr

/-- `Action.__init__`: fails with `ValueError` when the kind is `Copy` or
`Move` and no target is given; `_target_is_file` is initialised from the
target's suffix, and `_ignore_sub_folders` starts empty. -/
def Action.init (action : SourceAction) (source : SPath) (target : Option SPath)
    (priority : Nat) : Except Err Action :=
  if (action = .copy ∨ action = .move) ∧ target = none then
    .error .invalidArg
  else
    .ok ⟨action, source, target, priority, targetHasSuffix target, []⟩

/-! ## The filesystem model -/

/-- A filesystem entry: a file, or a directory with an ordered list of
named children. -/
inductive Entry where
  | file
  | dir (children : List (String × Entry))
deriving Inhabited

/-- A filesystem state: the children of the root directory. -/
abbrev FS := List (String × Entry)

/-- Look up the entry at a path (`none` if no such entry). -/
def getEntry : FS → SPath → Option Entry
  | fs, [] => some (.dir fs)
  | fs, s :: rest =>
    match fs.lookup s with
    | some (.dir ch) => getEntry ch rest
    | some .file => if rest.isEmpty then some .file else none
    | none => none

/-- `Path.exists()`. -/
def pexists (fs : FS) (p : SPath) : Bool :=
  (getEntry fs p).isSome

/-- `Path.is_dir()` (false when the path does not exist). -/
def isDir (fs : FS) (p : SPath) : Bool :=
  match getEntry fs p with
  | some (.dir _) => true
  | _ => false

/-- `Path.is_file()` (false when the path does not exist). -/
def isFile (fs : FS) (p : SPath) : Bool :=
  match getEntry fs p with
  | some .file => true
  | _ => false

/-- Replace the value at the first occurrence of a key in an association
list (no change if the key is absent). -/
def replaceChild (fs : FS) (s : String) (e : Entry) : FS :=
  match fs with
  | [] => []
  | (n, e₀) :: rest =>
    if n = s then (n, e) :: rest else (n, e₀) :: replaceChild rest s e

/-- Set the entry at a path, overwriting any existing entry; fails
(`none`) when some proper ancestor of the path is not an existing
directory.  New names are appended at the end of their directory. -/
def putEntry : FS → SPath → Entry → Option FS
  | _, [], _ => none
  | fs, [s], e =>
    if (fs.lookup s).isSome then some (replaceChild fs s e)
    else some (fs ++ [(s, e)])
  | fs, s :: rest, e =>
    match fs.lookup s with
    | some (.dir ch) => (putEntry ch rest e).map (replaceChild fs s ∘ Entry.dir)
    | _ => none

/-- Remove the entry at a path (`none` when the path does not exist). -/
def removeEntry : FS → SPath → Option FS
  | _, [] => none
  | fs, [s] =>
    if (fs.lookup s).isSome then some (fs.filter (fun e => !(e.1 = s))) else none
  | fs, s :: rest =>
    match fs.lookup s with
    | some (.dir ch) => (removeEntry ch rest).map (replaceChild fs s ∘ Entry.dir)
    | _ => none

/-- `Path.mkdir(parents=True)` on a path all of whose missing components
are created as directories; fails (`none`) when a component is a file. -/
def mkdirParents : FS → SPath → Option FS
  | fs, [] => some fs
  | fs, s :: rest =>
    match fs.lookup s with
    | some (.dir ch) => (mkdirParents ch rest).map (replaceChild fs s ∘ Entry.dir)
    | some .file => none
    | none => (mkdirParents [] rest).map (fun ch => fs ++ [(s, .dir ch)])

/-- `Action.ignore_sub_folder`: fails with `ValueError` when the action's
source is a file; otherwise appends the path to `_ignore_sub_folders`. -/
def Action.ignoreSubFolder (fs : FS) (a : Action) (p : SPath) : Except Err Action :=
  if isFile fs a.source then .error .invalidArg
  else .ok { a with ignoreSubFolders := a.ignoreSubFolders ++ [p] }

/-! ## The action resolver (`_convert_encapsulated_actions`) -/

/-- The declaration mapping: an insertion-ordered `dict` from path to
`Action`, as an association list. -/
abbrev AMap := List (SPath × Action)

/-- `dict` lookup (first matching key). -/
def alookup : AMap → SPath → Option Action
  | [], _ => none
  | (q, b) :: rest, p => if q = p then some b else alookup rest p

/-- `dict.pop`: remove every pair with the given key. -/
def aerase (m : AMap) (p : SPath) : AMap :=
  m.filter (fun e => !decide (e.1 = p))

/-- `dict.__setitem__`: replace in place when the key is present,
append at the end otherwise. -/
def aset (m : AMap) (p : SPath) (a : Action) : AMap :=
  if (alookup m p).isSome then
    m.map (fun e => if e.1 = p then (p, a) else e)
  else m ++ [(p, a)]

/-- The `Action(SourceAction.DELETE, source, priority=priority)` built by
the resolver's Move branch. -/
def deleteAction (source : SPath) (priority : Nat) : Action :=
  ⟨.delete, source, none, priority, false, []⟩

/-- The body of the resolver's inner loop once the first qualifying parent
`q` (with modified entry `parentAction`) has been found: pop the entry if
the kinds agree; for an encapsulated `Ignore`, register an exclusion on a
`Copy` parent and pop, or convert to a `Delete` under a `Move` parent. -/
def stepParent (fs : FS) (p : SPath) (a : Action) (q : SPath)
    (parentAction : Action) (m : AMap) : Except Err AMap :=
  let m₁ := if parentAction.action = a.action then aerase m p else m
  if a.action = .ignore then
    if parentAction.action = .copy then
      match parentAction.ignoreSubFolder fs p with
      | .ok pa => .ok (aerase (aset m₁ q pa) p)
      | .error e => .error e
    else if parentAction.action = .move then
      .ok (aset m₁ p (deleteAction a.source a.priority))
    else .ok m₁
  else .ok m₁

/-- The resolver's walk over `action.source.parents`: find the first
parent that is still in the modified mapping and whose *original* declared
action is not `Ignore`, and apply `stepParent` there; leave the mapping
unchanged when no parent qualifies. -/
def walkParents (fs : FS) (orig : AMap) (p : SPath) (a : Action) :
    List SPath → AMap → Except Err AMap
  | [], m => .ok m
  | q :: rest, m =>
    match alookup m q, alookup orig q with
    | some mq, some oq =>
      if oq.action ≠ SourceAction.ignore then stepParent fs p a q mq m
      else walkParents fs orig p a rest m
    | some _, none => walkParents fs orig p a rest m
    | none, _ => walkParents fs orig p a rest m

/-- The resolver's outer loop over the original `actions.items()`. -/
def convertGo (fs : FS) (orig : AMap) : List (SPath × Action) → AMap → Except Err AMap
  | [], m => .ok m
  | (p, a) :: rest, m =>
    match walkParents fs orig p a (parentsOf a.source) m with
    | .ok m₂ => convertGo fs orig rest m₂
    | .error e => .error e

/-- `_convert_encapsulated_actions`: iterate over the declarations,
rewriting a deep copy of the mapping. -/
def convertEncapsulatedActions (fs : FS) (actions : AMap) : Except Err AMap :=
  convertGo fs actions actions actions

/-! ## The executor (`Action.perform`) -/

/-- Which underlying `shutil` function `_copy`/`_move` selects. -/
inductive FuncKind where
  | copy2
  | copytree
  | moveFn
deriving DecidableEq, Repr

mutual
/-- The copy filter implementing `_ignore_sub_folder_callback`: drop the
descendants (at any depth) whose full source-side path is excluded. -/
def filterEntry (ign : List SPath) (base : SPath) : Entry → Entry
  | .file => .file
  | .dir ch => .dir (filterChildren ign base ch)

/-- `filterEntry` on the children of a directory. -/
def filterChildren (ign : List SPath) (base : SPath) :
    List (String × Entry) → List (String × Entry)
  | [] => []
  | (n, e) :: rest =>
    (if (base ++ [n]) ∈ ign then []
     else [(n, filterEntry ign (base ++ [n]) e)]) ++ filterChildren ign base rest
end

/-- `shutil.copy2(src, dst)`: copying a file into an existing directory
targets `dst/src.name`; otherwise `dst` itself is (over)written. -/
def copy2Run (src dst : SPath) (fs : FS) : FS × Option Err :=
  match getEntry fs src with
  | some .file =>
    let d := if isDir fs dst then dst ++ [lastName src] else dst
    match putEntry fs d .file with
    | some fs₁ => (fs₁, none)
    | none => (fs, some .fsError)
  | _ => (fs, some .sourceMissing)

/-- `shutil.copytree(src, dst, ignore=...)`: fails when `dst` already
exists; otherwise copies the source directory, dropping excluded paths. -/
def copytreeRun (ign : List SPath) (src dst : SPath) (fs : FS) : FS × Option Err :=
  match getEntry fs src with
  | some (.dir ch) =>
    if pexists fs dst then (fs, some .fsError)
    else
      match putEntry fs dst (.dir (filterChildren ign src ch)) with
      | some fs₁ => (fs₁, none)
      | none => (fs, some .fsError)
  | _ => (fs, some .sourceMissing)

/-- `shutil.move(src, dst)`: moving into an existing directory targets
`dst/src.name` and fails if that already exists; otherwise the entry is
renamed onto `dst`. -/
def moveRunFs (src dst : SPath) (fs : FS) : FS × Option Err :=
  match getEntry fs src with
  | some e =>
    let d := if isDir fs dst then dst ++ [lastName src] else dst
    if isDir fs dst ∧ pexists fs d then (fs, some .fsError)
    else
      match removeEntry fs src with
      | some fs₁ =>
        match putEntry fs₁ d e with
        | some fs₂ => (fs₂, none)
        | none => (fs, some .fsError)
      | none => (fs, some .sourceMissing)
  | none => (fs, some .sourceMissing)

/-- `Path.rmdir()`: remove an empty directory, error otherwise. -/
def rmdirRun (fs : FS) (p : SPath) : FS × Option Err :=
  match getEntry fs p with
  | some (.dir []) =>
    match removeEntry fs p with
    | some fs₁ => (fs₁, none)
    | none => (fs, some .fsError)
  | _ => (fs, some .fsError)

/-- `Action._delete`: log only under dry-run; `unlink` a file, `rmtree`
a directory, error on a missing source. -/
def deleteRun (a : Action) (dryRun : Bool) (fs : FS) : FS × Option Err :=
  if dryRun then (fs, none)
  else if isFile fs a.source then
    match removeEntry fs a.source with
    | some fs₁ => (fs₁, none)
    | none => (fs, some .sourceMissing)
  else if isDir fs a.source then
    match removeEntry fs a.source with
    | some fs₁ => (fs₁, none)
    | none => (fs, some .sourceMissing)
  else (fs, some .sourceMissing)

/-- The `func(str(self.source), str(self.target))` call in
`Action._migrate`.  A `copy2` wrapped by `partial(..., ignore=...)`
(file source with nonempty exclusions) fails with `TypeError`. -/
def applyFunc (fk : FuncKind) (a : Action) (t : SPath) (fs : FS) : FS × Option Err :=
  match fk with
  | .copy2 =>
    if a.ignoreSubFolders.isEmpty then copy2Run a.source t fs
    else (fs, some .fsError)
  | .copytree => copytreeRun a.ignoreSubFolders a.source t fs
  | .moveFn => moveRunFs a.source t fs

/-- The `target_parent` handling of `Action._migrate`: create the target's
parent directory (with intermediate segments) when missing — logged only
under dry-run. -/
def ensureParent (t : SPath) (dryRun : Bool) (fs : FS) : FS × Option Err :=
  if pexists fs t.dropLast then (fs, none)
  else if dryRun then (fs, none)
  else
    match mkdirParents fs t.dropLast with
    | some fs₁ => (fs₁, none)
    | none => (fs, some .fsError)

/-- `Action._migrate_with_source_name`: re-target to `target / source.name`,
mark the new target as a file when the source is one, and perform the
nested action (a fresh `Action`, whose exclusion list is empty). -/
def migrateWithSourceName (recurse : Action → FS → FS × Option Err)
    (a : Action) (t : SPath) (fs : FS) : FS × Option Err :=
  match Action.init a.action a.source (some (t ++ [lastName a.source])) a.priority with
  | .error e => (fs, some e)
  | .ok a₁ =>
    let a₂ := if isFile fs a.source then { a₁ with targetIsFile := true } else a₁
    recurse a₂ fs

/-- The loop of `Action._migrate_elements` over the snapshot of the source
directory's child names: skip excluded children, propagate the exclusion
list to directory children, and perform each synthesized child action. -/
def elemsLoop (recurse : Action → FS → FS × Option Err) (a : Action) (t : SPath) :
    List String → FS → FS × Option Err
  | [], fs => (fs, none)
  | n :: rest, fs =>
    if a.source ++ [n] ∈ a.ignoreSubFolders then elemsLoop recurse a t rest fs
    else
      match Action.init a.action (a.source ++ [n]) (some (t ++ [n])) a.priority with
      | .error e => (fs, some e)
      | .ok a₁ =>
        let a₂ :=
          if isDir fs (a.source ++ [n]) then
            { a₁ with ignoreSubFolders := a.ignoreSubFolders }
          else a₁
        match recurse a₂ fs with
        | (fs₁, some e) => (fs₁, some e)
        | (fs₁, none) => elemsLoop recurse a t rest fs₁

/-- `Action._migrate_elements`: iterate over `source.iterdir()`. -/
def migrateElements (recurse : Action → FS → FS × Option Err)
    (a : Action) (t : SPath) (fs : FS) : FS × Option Err :=
  match getEntry fs a.source with
  | some (.dir ch) => elemsLoop recurse a t (ch.map (·.1)) fs
  | _ => (fs, some .sourceMissing)

/-- `Action._migrate`. -/
def migrateRun (recurse : Action → FS → FS × Option Err)
    (a : Action) (fk : FuncKind) (dryRun : Bool) (fs : FS) : FS × Option Err :=
  match a.target with
  | none => (fs, some .invalidArg)
  | some t =>
    if pexists fs t ∧ ¬ isDir fs t then (fs, some .targetExists)
    else if isDir fs a.source ∧ a.targetIsFile then (fs, some .dirToFile)
    else if isDir fs a.source ∧ isDir fs t then
      if strLower (lastName a.source) = strLower (lastName t) then
        match migrateElements recurse a t fs with
        | (fs₁, some e) => (fs₁, some e)
        | (fs₁, none) =>
          if a.action = .move ∧ dryRun = false then rmdirRun fs₁ a.source
          else (fs₁, none)
      else migrateWithSourceName recurse a t fs
    else if isFile fs a.source ∧ ¬ a.targetIsFile then
      migrateWithSourceName recurse a t fs
    else
      match ensureParent t dryRun fs with
      | (fs₁, some e) => (fs₁, some e)
      | (fs₁, none) => if dryRun then (fs₁, none) else applyFunc fk a t fs₁

/-- `Action._copy`: `copy2` for a file source, `copytree` otherwise. -/
def copyRun (recurse : Action → FS → FS × Option Err)
    (a : Action) (dryRun : Bool) (fs : FS) : FS × Option Err :=
  migrateRun recurse a (if isFile fs a.source then .copy2 else .copytree) dryRun fs

/-- `Action._move`. -/
def moveRun (recurse : Action → FS → FS × Option Err)
    (a : Action) (dryRun : Bool) (fs : FS) : FS × Option Err :=
  migrateRun recurse a .moveFn dryRun fs

/-- `Action.perform`, fuelled: one unit of fuel per (recursive)
`perform` call. -/
def performGo : Nat → Bool → Action → FS → FS × Option Err
  | 0, _, _, fs => (fs, some .outOfFuel)
  | fuel + 1, dryRun, a, fs =>
    match a.action with
    | .delete => deleteRun a dryRun fs
    | .copy => copyRun (fun a₂ fs₂ => performGo fuel dryRun a₂ fs₂) a dryRun fs
    | .move => moveRun (fun a₂ fs₂ => performGo fuel dryRun a₂ fs₂) a dryRun fs
    | .ignore => (fs, none)
    | .notDefined => (fs, some .notDefined)

/-! ## The scheduler (`_prioritize_actions`, `perform_actions`) -/

/-- Insert into a descending-priority list, after every element of
greater-or-equal priority. -/
def insertDesc (a : Action) : List Action → List Action
  | [] => [a]
  | b :: rest =>
    if a.priority < b.priority then b :: insertDesc a rest
    else a :: b :: rest

/-- `_prioritize_actions`: the declared actions sorted by priority
descending, ties kept in mapping order (the unique stable descending
order produced by Python's `sorted(..., key=priority, reverse=True)`). -/
def prioritizeActions (m : AMap) : List Action :=
  (m.map (·.2)).foldr insertDesc []

/-- The loop of `perform_actions` over the prioritized list: a raised
error aborts the remaining sequence (and nothing is rolled back). -/
def runActions (fuel : Nat) (dryRun : Bool) : List Action → FS → FS × Option Err
  | [], fs => (fs, none)
  | a :: rest, fs =>
    match performGo fuel dryRun a fs with
    | (fs₁, some e) => (fs₁, some e)
    | (fs₁, none) => runActions fuel dryRun rest fs₁

/-- `perform_actions`: resolve encapsulated actions, prioritize, and
perform each action in order. -/
def performActions (fuel : Nat) (actions : AMap) (dryRun : Bool) (fs : FS) :
    FS × Option Err :=
  match convertEncapsulatedActions fs actions with
  | .error e => (fs, some e)
  | .ok m => runActions fuel dryRun (prioritizeActions m) fs

/-! ## Derived notions used by the verification -/

/-- The guard of the resolver's walk, as a predicate on a candidate
parent: `parent in actions_modified and actions[parent].action is not
SourceAction.IGNORE`. -/
def qualifiesB (orig m : AMap) (q : SPath) : Bool :=
  (alookup m q).isSome &&
    (match alookup orig q with
     | some b => decide (b.action ≠ SourceAction.ignore)
     | none => false)

/-- The first parent of the list at which the walk's guard holds. -/
def fqPath (orig m : AMap) : List SPath → Option SPath
  | [] => none
  | q :: rest => if qualifiesB orig m q then some q else fqPath orig m rest

/-- The kind of the mapping's action at a path, if any. -/
def kindAt (m : AMap) (q : SPath) : Option SourceAction :=
  match alookup m q with
  | some b => some b.action
  | none => none

/-- The kind of the modified action at the first qualifying parent. -/
def fqKind (orig m : AMap) (ps : List SPath) : Option SourceAction :=
  match fqPath orig m ps with
  | some q => kindAt m q
  | none => none

/-- The nearest ancestor of `p` carrying a declared action whose kind is
not `Ignore` (this is the first qualifying parent at the start of the
resolver, when the modified mapping still equals the declarations). -/
def nearestAncestor (actions : AMap) (p : SPath) : Option SPath :=
  fqPath actions actions (parentsOf p)

/-- The mapping's keys are distinct (always true of a Python `dict`). -/
def NodupKeys (m : AMap) : Prop :=
  (m.map (fun pr => pr.1)).Nodup

/-- Every declared action is keyed by its own source path (as built by
`sheet_to_actions`). -/
def SrcOk (m : AMap) : Prop :=
  ∀ pr ∈ m, pr.2.source = pr.1

/-- `b'` is `b` with a possibly extended exclusion list: all other fields
agree and every excluded path of `b` is still excluded in `b'`. -/
def extendsExcl (b b' : Action) : Prop :=
  b'.action = b.action ∧ b'.source = b.source ∧ b'.target = b.target ∧
    b'.priority = b.priority ∧ b'.targetIsFile = b.targetIsFile ∧
    ∀ z ∈ b.ignoreSubFolders, z ∈ b'.ignoreSubFolders

/-- No declared `Ignore` action sits (via the first-qualifying-ancestor
rule) under a `Move`: no Ignore-to-Delete conversion can occur. -/
def NoMoveConv (orig : AMap) : Prop :=
  ∀ pr ∈ orig, pr.2.action = .ignore →
    ∀ q, fqPath orig orig (parentsOf pr.1) = some q →
      ∀ oq, alookup orig q = some oq → oq.action ≠ .move

/-- Invariant carried by the resolver over its modified mapping:
keys shrink to a subset of the declared keys, keys stay distinct, every
still-present entry declared with a non-`Ignore` kind keeps all fields
except its (growing) exclusion list, and the kind found at the first
qualifying ancestor of any path never changes. -/
def ResolveInv (orig m : AMap) : Prop :=
  (∀ x, (alookup m x).isSome → (alookup orig x).isSome) ∧
  NodupKeys m ∧
  (∀ x c b, alookup orig x = some c → c.action ≠ .ignore →
    alookup m x = some b → extendsExcl c b) ∧
  (∀ x, fqKind orig m (parentsOf x) = fqKind orig orig (parentsOf x))

/-- The fresh action built by `Action._migrate_with_source_name`:
re-targeted to `target / source.name`, with an empty exclusion list and
the target-is-file flag recomputed from the new target's suffix (the
source has not been marked as a file when it is a directory). -/
def retargetedAction (a : Action) (t : SPath) : Action :=
  ⟨a.action, a.source, some (t ++ [lastName a.source]), a.priority,
    targetHasSuffix (some (t ++ [lastName a.source])), []⟩

/-! ## Concrete declaration sets and filesystems used as inputs -/

/-- A `Copy` action as built by `Action.__init__`. -/
def mkCopy (s t : SPath) (pr : Nat) : Action :=
  ⟨.copy, s, some t, pr, nameHasSuffix (lastName t), []⟩

/-- A `Move` action as built by `Action.__init__`. -/
def mkMove (s t : SPath) (pr : Nat) : Action :=
  ⟨.move, s, some t, pr, nameHasSuffix (lastName t), []⟩

/-- An `Ignore` action as built by `Action.__init__`. -/
def mkIgnore (s : SPath) (pr : Nat) : Action :=
  ⟨.ignore, s, none, pr, false, []⟩

/-- Three nested `Copy` declarations: `a`, `a/b`, `a/b/c`. -/
def chainCopies : AMap :=
  [ (["a"], mkCopy ["a"] ["t"] 1),
    (["a","b"], mkCopy ["a","b"] ["t2"] 2),
    (["a","b","c"], mkCopy ["a","b","c"] ["t3"] 3) ]

/-- A `Move` on `m` with `Ignore`s on `m/p` and `m/p/q`. -/
def moveIgnores : AMap :=
  [ (["m"], mkMove ["m"] ["t"] 1),
    (["m","p"], mkIgnore ["m","p"] 2),
    (["m","p","q"], mkIgnore ["m","p","q"] 3) ]

/-- `Copy`s on `a` and `a/b` with an `Ignore` on `a/b/c`, the `Ignore`
declared first. -/
def copyIgnoreFirst : AMap :=
  [ (["a","b","c"], mkIgnore ["a","b","c"] 3),
    (["a","b"], mkCopy ["a","b"] ["t2"] 2),
    (["a"], mkCopy ["a"] ["t"] 1) ]

/-- A `Copy` on `a` with an `Ignore` on `a/b/c`. -/
def copyIgnore : AMap :=
  [ (["a"], mkCopy ["a"] ["t"] 1),
    (["a","b","c"], mkIgnore ["a","b","c"] 3) ]

/-- Two files `a` and `b` at the root. -/
def twoFiles : FS := [("a", .file), ("b", .file)]

/-- A single declaration copying file `a` onto the existing file `b`. -/
def copyOntoFile : AMap :=
  [ (["a"], mkCopy ["a"] ["b"] 1) ]

/-- Source and target directories both named `a.b` (a name with an
extension-like suffix). -/
def suffixDirs : FS :=
  [ ("s", .dir [("a.b", .dir [("x", .file)])]),
    ("t", .dir [("a.b", .dir [])]) ]

/-- `/src/foo` with a child file, `/dst/foo` and `/dst/bar` existing. -/
def mergeNestFS : FS :=
  [ ("src", .dir [("foo", .dir [("f.txt", .file)])]),
    ("dst", .dir [("foo", .dir []), ("bar", .dir [])]) ]

/-! ## Basic lemmas on the mapping operations -/

theorem aerase_cons (q : SPath) (b : Action) (rest : AMap) (p : SPath) :
    aerase ((q, b) :: rest) p =
      if q = p then aerase rest p else (q, b) :: aerase rest p := by
  by_cases h : q = p <;> simp [aerase, List.filter_cons, h]

theorem alookup_aerase (m : AMap) (p x : SPath) :
    alookup (aerase m p) x = if x = p then none else alookup m x := by
  induction m with
  | nil => simp [aerase, alookup]
  | cons e rest ih =>
    obtain ⟨q, b⟩ := e
    rw [aerase_cons]
    by_cases hqp : q = p
    · rw [if_pos hqp, ih]
      subst hqp
      by_cases hxq : x = q
      · simp [hxq]
      · have hqx : ¬ q = x := fun h => hxq (Eq.symm h)
        simp [alookup, hxq, hqx]
    · rw [if_neg hqp]
      by_cases hqx : q = x
      · subst hqx
        simp [alookup, hqp]
      · simp [alookup, hqx, ih]

theorem alookup_map_setkey (m : AMap) (p x : SPath) (a : Action) (hx : x ≠ p) :
    alookup (m.map (fun e => if e.1 = p then (p, a) else e)) x = alookup m x := by
  induction m with
  | nil => simp [alookup]
  | cons e rest ih =>
    obtain ⟨q, b⟩ := e
    by_cases hqp : q = p
    · subst hqp
      simp only [List.map_cons, if_pos rfl]
      have hqx : ¬ q = x := fun h => hx (Eq.symm h)
      simp [alookup, hqx, ih]
    · simp only [List.map_cons, if_neg hqp]
      by_cases hqx : q = x
      · simp [alookup, hqx]
      · simp [alookup, hqx, ih]

theorem alookup_map_setkey_self (m : AMap) (p : SPath) (a : Action)
    (h : (alookup m p).isSome) :
    alookup (m.map (fun e => if e.1 = p then (p, a) else e)) p = some a := by
  induction m with
  | nil => simp [alookup] at h
  | cons e rest ih =>
    obtain ⟨q, b⟩ := e
    by_cases hqp : q = p
    · subst hqp
      simp only [List.map_cons, if_pos rfl]
      simp [alookup]
    · simp only [List.map_cons, if_neg hqp]
      simp [alookup, hqp] at h ⊢
      exact ih h

theorem alookup_append_single (m : AMap) (p x : SPath) (a : Action)
    (h : alookup m p = none) :
    alookup (m ++ [(p, a)]) x = if x = p then some a else alookup m x := by
  induction m with
  | nil =>
    by_cases hxp : x = p
    · simp [alookup, hxp]
    · have hpx : ¬ p = x := fun hh => hxp (Eq.symm hh)
      simp [alookup, hpx, hxp]
  | cons e rest ih =>
    obtain ⟨q, b⟩ := e
    have hqp : ¬ q = p := by
      intro hq
      rw [hq] at h
      simp [alookup] at h
    have h₂ : alookup rest p = none := by
      simpa [alookup, hqp] using h
    by_cases hqx : q = x
    · subst hqx
      have hxp : ¬ q = p := hqp
      simp [alookup, hxp]
    · simp [alookup, hqx]
      exact ih h₂

theorem alookup_aset (m : AMap) (p x : SPath) (a : Action) :
    alookup (aset m p a) x = if x = p then some a else alookup m x := by
  unfold aset
  split
  · rename_i hsome
    by_cases hxp : x = p
    · subst hxp
      simp [alookup_map_setkey_self m x a hsome]
    · simp [alookup_map_setkey m p x a hxp, hxp]
  · rename_i hnone
    have : alookup m p = none := by
      cases h : alookup m p with
      | none => rfl
      | some b => rw [h] at hnone; simp at hnone
    exact alookup_append_single m p x a this

theorem mem_of_alookup {m : AMap} {p : SPath} {a : Action}
    (h : alookup m p = some a) : (p, a) ∈ m := by
  induction m with
  | nil => simp [alookup] at h
  | cons e rest ih =>
    obtain ⟨q, b⟩ := e
    by_cases hqp : q = p
    · subst hqp
      simp [alookup] at h
      simp [h]
    · simp [alookup, hqp] at h
      exact List.mem_cons_of_mem _ (ih h)

theorem alookup_eq_some_of_mem {m : AMap} {p : SPath} {a : Action}
    (hnd : NodupKeys m) (h : (p, a) ∈ m) : alookup m p = some a := by
  induction m with
  | nil => simp at h
  | cons e rest ih =>
    obtain ⟨q, b⟩ := e
    have hnd' : q ∉ rest.map (fun pr => pr.1) ∧ NodupKeys rest := by
      rw [NodupKeys, List.map_cons, List.nodup_cons] at hnd
      exact hnd
    rcases List.mem_cons.mp h with h₁ | h₂
    · rw [Prod.mk.injEq] at h₁
      obtain ⟨hp, ha⟩ := h₁
      subst hp; subst ha
      simp [alookup]
    · have hq : ¬ q = p := by
        intro hqp
        subst hqp
        exact hnd'.1 (List.mem_map.mpr ⟨(q, a), h₂, rfl⟩)
      simp [alookup, hq]
      exact ih hnd'.2 h₂

theorem alookup_isSome_of_mem {m : AMap} {pr : SPath × Action}
    (h : pr ∈ m) : (alookup m pr.1).isSome := by
  induction m with
  | nil => simp at h
  | cons e rest ih =>
    rcases List.mem_cons.mp h with h₁ | h₂
    · subst h₁; simp [alookup]
    · by_cases hq : e.1 = pr.1 <;> simp [alookup, hq]
      exact ih h₂

theorem alookup_split {m : AMap} {p : SPath} {a : Action}
    (h : alookup m p = some a) :
    ∃ l₁ l₂, m = l₁ ++ (p, a) :: l₂ ∧ ∀ pr ∈ l₁, pr.1 ≠ p := by
  induction m with
  | nil => simp [alookup] at h
  | cons e rest ih =>
    obtain ⟨q, b⟩ := e
    by_cases hqp : q = p
    · subst hqp
      simp [alookup] at h
      exact ⟨[], rest, by simp [h], by simp⟩
    · simp [alookup, hqp] at h
      obtain ⟨l₁, l₂, hsplit, hne⟩ := ih h
      refine ⟨(q, b) :: l₁, l₂, by simp [hsplit], ?_⟩
      intro pr hpr
      rcases List.mem_cons.mp hpr with h₁ | h₂
      · subst h₁; exact hqp
      · exact hne pr h₂

/-! ## Lemmas on `parentsOf` -/

theorem parentsOf_cons (p : SPath) (hne : p ≠ []) :
    parentsOf p = p.dropLast :: parentsOf p.dropLast := by
  obtain ⟨n, hn⟩ : ∃ n, p.length = n + 1 := by
    cases p with
    | nil => exact absurd rfl hne
    | cons x xs => exact ⟨xs.length, by simp⟩
  have hlen : p.dropLast.length = n := by
    rw [List.length_dropLast, hn]
    omega
  have hdl : p.dropLast = p.take n := by
    rw [List.dropLast_eq_take, hn]
    congr 1
  unfold parentsOf
  rw [hn, hlen, List.range_succ, List.reverse_append, List.reverse_singleton,
    List.singleton_append, List.map_cons]
  congr 1
  · exact hdl.symm
  · apply List.map_congr_left
    intro k hk
    have hklt : k < n := by
      rw [List.mem_reverse, List.mem_range] at hk
      exact hk
    rw [hdl, List.take_take]
    congr 1
    omega

theorem length_lt_of_mem_parentsOf :
    ∀ (p : SPath), ∀ q ∈ parentsOf p, q.length < p.length := by
  intro p
  match p with
  | [] => intro q hq; simp [parentsOf] at hq
  | s :: rest =>
    intro q hq
    rw [parentsOf_cons (s :: rest) (by simp)] at hq
    rcases List.mem_cons.mp hq with h₁ | h₂
    · subst h₁
      simp [List.length_dropLast]
    · have := length_lt_of_mem_parentsOf (s :: rest).dropLast q h₂
      simp [List.length_dropLast] at this ⊢
      omega
termination_by p => p.length
decreasing_by simp [List.length_dropLast]

theorem parentsOf_decomp :
    ∀ (x : SPath), ∀ p ∈ parentsOf x,
      ∃ pre, parentsOf x = pre ++ p :: parentsOf p ∧ ∀ r ∈ pre, p.length < r.length := by
  intro x
  match x with
  | [] => intro p hp; simp [parentsOf] at hp
  | s :: rest =>
    intro p hp
    rw [parentsOf_cons (s :: rest) (by simp)] at hp ⊢
    rcases List.mem_cons.mp hp with h₁ | h₂
    · subst h₁
      exact ⟨[], rfl, by simp⟩
    · obtain ⟨pre, hsplit, hlen⟩ := parentsOf_decomp (s :: rest).dropLast p h₂
      refine ⟨(s :: rest).dropLast :: pre, by simp [hsplit], ?_⟩
      intro r hr
      rcases List.mem_cons.mp hr with h₁ | h₃
      · subst h₁
        exact length_lt_of_mem_parentsOf _ p h₂
      · exact hlen r h₃
termination_by x => x.length
decreasing_by simp [List.length_dropLast]

theorem not_mem_parentsOf_self (p : SPath) : p ∉ parentsOf p := by
  intro h
  exact absurd (length_lt_of_mem_parentsOf p p h) (by omega)

/-! ## Lemmas on `fqPath` and `fqKind` -/

theorem fqPath_eq_none {orig m : AMap} {ps : List SPath}
    (h : ∀ q ∈ ps, qualifiesB orig m q = false) : fqPath orig m ps = none := by
  induction ps with
  | nil => rfl
  | cons q rest ih =>
    have hq := h q (by simp)
    simp [fqPath, hq]
    exact ih fun r hr => h r (by simp [hr])

theorem fqPath_qual {orig m : AMap} {ps : List SPath} {q : SPath}
    (h : fqPath orig m ps = some q) : q ∈ ps ∧ qualifiesB orig m q = true := by
  induction ps with
  | nil => simp [fqPath] at h
  | cons r rest ih =>
    by_cases hr : qualifiesB orig m r = true
    · simp [fqPath, hr] at h
      subst h
      exact ⟨by simp, hr⟩
    · simp [fqPath, hr] at h
      obtain ⟨h₁, h₂⟩ := ih h
      exact ⟨by simp [h₁], h₂⟩

theorem fqPath_splitAt {orig m : AMap} {ps : List SPath} {q : SPath}
    (h : fqPath orig m ps = some q) :
    ∃ l₁ l₂, ps = l₁ ++ q :: l₂ ∧ ∀ r ∈ l₁, qualifiesB orig m r = false := by
  induction ps with
  | nil => simp [fqPath] at h
  | cons r rest ih =>
    by_cases hr : qualifiesB orig m r = true
    · simp [fqPath, hr] at h
      subst h
      exact ⟨[], rest, rfl, by simp⟩
    · simp [fqPath, hr] at h
      obtain ⟨l₁, l₂, hsplit, hfalse⟩ := ih h
      refine ⟨r :: l₁, l₂, by simp [hsplit], ?_⟩
      intro s hs
      rcases List.mem_cons.mp hs with h₁ | h₂
      · subst h₁; simpa using hr
      · exact hfalse s h₂

theorem fqPath_congr {orig m₁ m₂ : AMap} {ps : List SPath}
    (h : ∀ q ∈ ps, qualifiesB orig m₁ q = qualifiesB orig m₂ q) :
    fqPath orig m₁ ps = fqPath orig m₂ ps := by
  induction ps with
  | nil => rfl
  | cons q rest ih =>
    have hq := h q (by simp)
    simp [fqPath, hq]
    split <;> [rfl; exact ih fun r hr => h r (by simp [hr])]

theorem fqPath_append (orig m : AMap) (l₁ l₂ : List SPath) :
    fqPath orig m (l₁ ++ l₂) =
      match fqPath orig m l₁ with
      | some q => some q
      | none => fqPath orig m l₂ := by
  induction l₁ with
  | nil => simp [fqPath]
  | cons q rest ih =>
    by_cases hq : qualifiesB orig m q = true <;> simp [fqPath, hq, ih]

theorem fqKind_congr {orig m₁ m₂ : AMap} {ps : List SPath}
    (hqual : ∀ q ∈ ps, qualifiesB orig m₁ q = qualifiesB orig m₂ q)
    (hkind : ∀ q ∈ ps, qualifiesB orig m₁ q = true →
      (alookup m₁ q).map (fun b => b.action) = (alookup m₂ q).map (fun b => b.action)) :
    fqKind orig m₁ ps = fqKind orig m₂ ps := by
  unfold fqKind
  rw [← fqPath_congr hqual]
  cases hfq : fqPath orig m₁ ps with
  | none => rfl
  | some q =>
    obtain ⟨hmem, hq⟩ := fqPath_qual hfq
    have hk := hkind q hmem hq
    cases h₁ : alookup m₁ q with
    | none =>
      rw [h₁] at hk
      cases h₂ : alookup m₂ q with
      | none => simp [kindAt, h₁, h₂]
      | some b₂ => rw [h₂] at hk; simp at hk
    | some b₁ =>
      rw [h₁] at hk
      cases h₂ : alookup m₂ q with
      | none => rw [h₂] at hk; simp at hk
      | some b₂ =>
        rw [h₂] at hk
        simp at hk
        simp [kindAt, h₁, h₂, hk]

/-! ## The resolver walk and the first qualifying ancestor -/

theorem qualifiesB_true_iff {orig m : AMap} {q : SPath} :
    qualifiesB orig m q = true ↔
      (alookup m q).isSome = true ∧
        ∃ oq, alookup orig q = some oq ∧ oq.action ≠ .ignore := by
  unfold qualifiesB
  cases h : alookup orig q with
  | none => simp [h]
  | some oq => simp [h, Bool.and_eq_true, decide_eq_true_iff]

theorem extendsExcl_refl (b : Action) : extendsExcl b b := by
  refine ⟨rfl, rfl, rfl, rfl, rfl, ?_⟩
  intro z hz
  exact hz

theorem extendsExcl_trans {a b c : Action}
    (h₁ : extendsExcl a b) (h₂ : extendsExcl b c) : extendsExcl a c := by
  obtain ⟨e₁, e₂, e₃, e₄, e₅, e₆⟩ := h₁
  obtain ⟨f₁, f₂, f₃, f₄, f₅, f₆⟩ := h₂
  exact ⟨f₁.trans e₁, f₂.trans e₂, f₃.trans e₃, f₄.trans e₄, f₅.trans e₅,
    fun z hz => f₆ z (e₆ z hz)⟩

theorem walk_eq_none {fs : FS} {orig : AMap} {p : SPath} {a : Action}
    {ps : List SPath} {m : AMap} (h : fqPath orig m ps = none) :
    walkParents fs orig p a ps m = .ok m := by
  induction ps with
  | nil => rfl
  | cons q rest ih =>
    by_cases hq : qualifiesB orig m q = true
    · simp [fqPath, hq] at h
    · simp only [fqPath, hq, if_neg, Bool.false_eq_true, if_false] at h
      cases h₁ : alookup m q with
      | none => simp [walkParents, h₁]; exact ih h
      | some mq =>
        cases h₂ : alookup orig q with
        | none => simp [walkParents, h₁, h₂]; exact ih h
        | some oq =>
          have hig : oq.action = .ignore := by
            by_contra hne
            exact hq (qualifiesB_true_iff.mpr ⟨by simp [h₁], oq, h₂, hne⟩)
          simp [walkParents, h₁, h₂, hig]
          exact ih h

theorem walk_eq_some {fs : FS} {orig : AMap} {p : SPath} {a : Action}
    {ps : List SPath} {m : AMap} {q : SPath} {mq : Action}
    (h : fqPath orig m ps = some q) (hmq : alookup m q = some mq) :
    walkParents fs orig p a ps m = stepParent fs p a q mq m := by
  induction ps with
  | nil => simp [fqPath] at h
  | cons r rest ih =>
    by_cases hr : qualifiesB orig m r = true
    · simp only [fqPath, hr, if_pos, if_true, Option.some.injEq] at h
      subst h
      rw [qualifiesB_true_iff] at hr
      obtain ⟨h₁, oq, h₂, h₃⟩ := hr
      simp [walkParents, hmq, h₂, h₃]
    · simp only [fqPath, hr, Bool.false_eq_true, if_false] at h
      cases h₁ : alookup m r with
      | none => simp [walkParents, h₁]; exact ih h
      | some mr =>
        cases h₂ : alookup orig r with
        | none => simp [walkParents, h₁, h₂]; exact ih h
        | some or₀ =>
          have hig : or₀.action = .ignore := by
            by_contra hne
            exact hr (qualifiesB_true_iff.mpr ⟨by simp [h₁], or₀, h₂, hne⟩)
          simp [walkParents, h₁, h₂, hig]
          exact ih h

/-- The only shapes a successful walk step can give to the modified
mapping, in terms of the processed pair `(p, a)`. -/
theorem walk_shapes {fs : FS} {orig : AMap} {p : SPath} {a : Action}
    {ps : List SPath} {m m' : AMap}
    (h : walkParents fs orig p a ps m = .ok m') :
    m' = m ∨
    (∃ q mq, fqPath orig m ps = some q ∧ alookup m q = some mq ∧
      (∃ oq, alookup orig q = some oq ∧ oq.action ≠ .ignore) ∧
      ((m' = aerase m p ∧ mq.action = a.action) ∨
       (∃ pa, pa = { mq with ignoreSubFolders := mq.ignoreSubFolders ++ [p] } ∧
          m' = aerase (aset m q pa) p ∧ a.action = .ignore ∧ mq.action = .copy) ∨
       (m' = aset m p (deleteAction a.source a.priority) ∧
          a.action = .ignore ∧ mq.action = .move))) := by
  cases hfq : fqPath orig m ps with
  | none =>
    rw [walk_eq_none hfq] at h
    left
    exact (Except.ok.inj h).symm
  | some q =>
    obtain ⟨hmem, hqual⟩ := fqPath_qual hfq
    rw [qualifiesB_true_iff] at hqual
    obtain ⟨hsome, oq, horig, hoq⟩ := hqual
    obtain ⟨mq, hmq⟩ := Option.isSome_iff_exists.mp hsome
    rw [walk_eq_some hfq hmq] at h
    unfold stepParent at h
    by_cases hkind : mq.action = a.action
    · rw [if_pos hkind] at h
      by_cases hign : a.action = .ignore
      · rw [if_pos hign] at h
        have hc : ¬ mq.action = .copy := by rw [hkind, hign]; simp
        have hm : ¬ mq.action = .move := by rw [hkind, hign]; simp
        rw [if_neg hc, if_neg hm] at h
        right
        exact ⟨q, mq, rfl, hmq, ⟨oq, horig, hoq⟩,
          Or.inl ⟨(Except.ok.inj h).symm, hkind⟩⟩
      · rw [if_neg hign] at h
        right
        exact ⟨q, mq, rfl, hmq, ⟨oq, horig, hoq⟩,
          Or.inl ⟨(Except.ok.inj h).symm, hkind⟩⟩
    · rw [if_neg hkind] at h
      by_cases hign : a.action = .ignore
      · rw [if_pos hign] at h
        by_cases hc : mq.action = .copy
        · rw [if_pos hc] at h
          unfold Action.ignoreSubFolder at h
          by_cases hf : isFile fs mq.source = true
          · rw [if_pos hf] at h
            exact absurd h (by simp)
          · rw [if_neg hf] at h
            right
            exact ⟨q, mq, rfl, hmq, ⟨oq, horig, hoq⟩,
              Or.inr (Or.inl ⟨_, rfl, (Except.ok.inj h).symm, hign, hc⟩)⟩
        · rw [if_neg hc] at h
          by_cases hm : mq.action = .move
          · rw [if_pos hm] at h
            right
            exact ⟨q, mq, rfl, hmq, ⟨oq, horig, hoq⟩,
              Or.inr (Or.inr ⟨(Except.ok.inj h).symm, hign, hm⟩)⟩
          · rw [if_neg hm] at h
            left
            exact (Except.ok.inj h).symm
      · rw [if_neg hign] at h
        left
        exact (Except.ok.inj h).symm

theorem convertGo_append (fs : FS) (orig : AMap) (l₁ l₂ : List (SPath × Action))
    (m : AMap) :
    convertGo fs orig (l₁ ++ l₂) m =
      match convertGo fs orig l₁ m with
      | .ok m₁ => convertGo fs orig l₂ m₁
      | .error e => .error e := by
  induction l₁ generalizing m with
  | nil => simp [convertGo]
  | cons pr rest ih =>
    obtain ⟨p, a⟩ := pr
    rw [List.cons_append]
    show convertGo fs orig ((p, a) :: (rest ++ l₂)) m = _
    cases hw : walkParents fs orig p a (parentsOf a.source) m with
    | ok m₂ => simp [convertGo, hw, ih]
    | error e => simp [convertGo, hw]

/-! ## Pointwise behaviour of the walk guard under the three operations -/

theorem qual_of_orig_ignore {orig m : AMap} {p : SPath} {c : Action}
    (h : alookup orig p = some c) (hig : c.action = .ignore) :
    qualifiesB orig m p = false := by
  unfold qualifiesB
  rw [h]
  simp [hig]

theorem qual_of_orig_none {orig m : AMap} {p : SPath}
    (h : alookup orig p = none) : qualifiesB orig m p = false := by
  unfold qualifiesB
  rw [h]
  simp

theorem qual_aerase_ne {orig m : AMap} {p r : SPath} (hrp : r ≠ p) :
    qualifiesB orig (aerase m p) r = qualifiesB orig m r := by
  unfold qualifiesB
  rw [alookup_aerase]
  simp [hrp]

theorem qual_aerase_self {orig m : AMap} {p : SPath} :
    qualifiesB orig (aerase m p) p = false := by
  unfold qualifiesB
  rw [alookup_aerase]
  simp

theorem qual_aset_ne {orig m : AMap} {p r : SPath} {a : Action} (hrp : r ≠ p) :
    qualifiesB orig (aset m p a) r = qualifiesB orig m r := by
  unfold qualifiesB
  rw [alookup_aset]
  simp [hrp]

theorem qual_aset_some {orig m : AMap} {p : SPath} {a : Action}
    (h : (alookup m p).isSome) :
    qualifiesB orig (aset m p a) p = qualifiesB orig m p := by
  unfold qualifiesB
  rw [alookup_aset]
  simp [h]

/-! ## `fqKind` is unchanged by the benign operations -/

theorem fqKind_aerase_ignored {orig m : AMap} {p : SPath} {ps : List SPath}
    (h : alookup orig p = none ∨ ∃ c, alookup orig p = some c ∧ c.action = .ignore) :
    fqKind orig (aerase m p) ps = fqKind orig m ps := by
  have hp : ∀ mm : AMap, qualifiesB orig mm p = false := by
    intro mm
    rcases h with h | ⟨c, hc, hig⟩
    · exact qual_of_orig_none h
    · exact qual_of_orig_ignore hc hig
  apply fqKind_congr
  · intro q _
    by_cases hq : q = p
    · subst hq; rw [hp, hp]
    · exact qual_aerase_ne hq
  · intro q _ hq
    have hqp : q ≠ p := by
      intro hh
      subst hh
      rw [hp] at hq
      cases hq
    rw [alookup_aerase]
    simp [hqp]

theorem fqKind_aset_ignored {orig m : AMap} {p : SPath} {a : Action} {ps : List SPath}
    (h : alookup orig p = none ∨ ∃ c, alookup orig p = some c ∧ c.action = .ignore) :
    fqKind orig (aset m p a) ps = fqKind orig m ps := by
  have hp : ∀ mm : AMap, qualifiesB orig mm p = false := by
    intro mm
    rcases h with h | ⟨c, hc, hig⟩
    · exact qual_of_orig_none h
    · exact qual_of_orig_ignore hc hig
  apply fqKind_congr
  · intro q _
    by_cases hq : q = p
    · subst hq; rw [hp, hp]
    · exact qual_aset_ne hq
  · intro q _ hq
    have hqp : q ≠ p := by
      intro hh
      subst hh
      rw [hp] at hq
      cases hq
    rw [alookup_aset]
    simp [hqp]

theorem fqKind_aset_samekind {orig m : AMap} {q : SPath} {mq pa : Action}
    {ps : List SPath} (hmq : alookup m q = some mq) (hk : pa.action = mq.action) :
    fqKind orig (aset m q pa) ps = fqKind orig m ps := by
  apply fqKind_congr
  · intro r _
    by_cases hr : r = q
    · subst hr; exact qual_aset_some (by simp [hmq])
    · exact qual_aset_ne hr
  · intro r _ _
    rw [alookup_aset]
    by_cases hr : r = q
    · subst hr; simp [hmq, hk]
    · simp [hr]

/-! ## Stability of entries through the rest of the loop -/

theorem convertGo_none_stable {fs : FS} {orig : AMap} {p : SPath} :
    ∀ {rest : List (SPath × Action)} {m m' : AMap},
      (∀ pr ∈ rest, pr.1 ≠ p ∨ pr.2.action ≠ .ignore) →
      alookup m p = none →
      convertGo fs orig rest m = .ok m' → alookup m' p = none := by
  intro rest
  induction rest with
  | nil =>
    intro m m' _ hnone h
    simp [convertGo] at h
    rw [← h]; exact hnone
  | cons pr rest ih =>
    intro m m' hcond hnone h
    obtain ⟨r, b⟩ := pr
    cases hw : walkParents fs orig r b (parentsOf b.source) m with
    | error e => simp [convertGo, hw] at h
    | ok m₂ =>
      simp only [convertGo, hw] at h
      refine ih (fun pr hpr => hcond pr (by simp [hpr])) ?_ h
      rcases walk_shapes hw with hsame | ⟨q, mq, _, hmq, _, hcases⟩
      · rw [hsame]; exact hnone
      · have hpq : p ≠ q := by
          intro hh
          subst hh
          rw [hnone] at hmq
          cases hmq
        rcases hcases with ⟨h₁, _⟩ | ⟨pa, _, h₁, _, _⟩ | ⟨h₁, hig, _⟩
        · rw [h₁, alookup_aerase]
          by_cases hpr : p = r
          · simp [hpr]
          · simp [hpr, hnone]
        · rw [h₁, alookup_aerase]
          by_cases hpr : p = r
          · simp [hpr]
          · simp [hpr]
            rw [alookup_aset]
            simp [hpq, hnone]
        · rcases hcond (r, b) (by simp) with hne | hne
          · rw [h₁, alookup_aset]
            have hpr : ¬ p = r := fun hh => hne hh.symm
            simp [hpr, hnone]
          · exact absurd hig hne

theorem convertGo_frozen_ignore {fs : FS} {orig : AMap} {p : SPath} {c d : Action} :
    ∀ {rest : List (SPath × Action)} {m m' : AMap},
      (∀ pr ∈ rest, pr.1 ≠ p) →
      alookup orig p = some c → c.action = .ignore →
      alookup m p = some d →
      convertGo fs orig rest m = .ok m' → alookup m' p = some d := by
  intro rest
  induction rest with
  | nil =>
    intro m m' _ _ _ hsome h
    simp [convertGo] at h
    rw [← h]; exact hsome
  | cons pr rest ih =>
    intro m m' hcond horig hig hsome h
    obtain ⟨r, b⟩ := pr
    cases hw : walkParents fs orig r b (parentsOf b.source) m with
    | error e => simp [convertGo, hw] at h
    | ok m₂ =>
      simp only [convertGo, hw] at h
      have hrp : r ≠ p := hcond (r, b) (by simp)
      have hpr : ¬ p = r := fun hh => hrp hh.symm
      refine ih (fun pr hpr => hcond pr (by simp [hpr])) horig hig ?_ h
      rcases walk_shapes hw with hsame | ⟨q, mq, _, hmq, ⟨oq, hoq, hoqne⟩, hcases⟩
      · rw [hsame]; exact hsome
      · have hpq : ¬ p = q := by
          intro hh
          subst hh
          rw [horig] at hoq
          cases hoq
          exact hoqne hig
        rcases hcases with ⟨h₁, _⟩ | ⟨pa, _, h₁, _, _⟩ | ⟨h₁, _, _⟩
        · rw [h₁, alookup_aerase]
          simp [hpr, hsome]
        · rw [h₁, alookup_aerase]
          simp [hpr]
          rw [alookup_aset]
          simp [hpq, hsome]
        · rw [h₁, alookup_aset]
          simp [hpr, hsome]

theorem convertGo_excl_mono {fs : FS} {orig : AMap} {q₀ : SPath} {oq₀ : Action} :
    ∀ {rest : List (SPath × Action)} {m m' : AMap} {b : Action},
      (∀ pr ∈ rest, pr.1 ≠ q₀) →
      alookup orig q₀ = some oq₀ → oq₀.action ≠ .ignore →
      alookup m q₀ = some b →
      convertGo fs orig rest m = .ok m' →
      ∃ b', alookup m' q₀ = some b' ∧ extendsExcl b b' := by
  intro rest
  induction rest with
  | nil =>
    intro m m' b _ _ _ hsome h
    simp [convertGo] at h
    rw [← h]
    exact ⟨b, hsome, extendsExcl_refl b⟩
  | cons pr rest ih =>
    intro m m' b hcond horig hne hsome h
    obtain ⟨r, bAct⟩ := pr
    cases hw : walkParents fs orig r bAct (parentsOf bAct.source) m with
    | error e => simp [convertGo, hw] at h
    | ok m₂ =>
      simp only [convertGo, hw] at h
      have hrq : r ≠ q₀ := hcond (r, bAct) (by simp)
      have hqr : ¬ q₀ = r := fun hh => hrq hh.symm
      rcases walk_shapes hw with hsame | ⟨q, mq, _, hmq, _, hcases⟩
      · rw [hsame] at h
        exact ih (fun pr hpr => hcond pr (by simp [hpr])) horig hne hsome h
      · rcases hcases with ⟨h₁, _⟩ | ⟨pa, hpa, h₁, _, _⟩ | ⟨h₁, _, _⟩
        · have hsome₂ : alookup m₂ q₀ = some b := by
            rw [h₁, alookup_aerase]
            simp [hqr, hsome]
          exact ih (fun pr hpr => hcond pr (by simp [hpr])) horig hne hsome₂ h
        · by_cases hq : q₀ = q
          · subst hq
            rw [hsome] at hmq
            cases hmq
            have hsome₂ : alookup m₂ q₀ = some pa := by
              rw [h₁, alookup_aerase]
              simp [hqr]
              rw [alookup_aset]
              simp
            obtain ⟨b', hb', hext⟩ :=
              ih (fun pr hpr => hcond pr (by simp [hpr])) horig hne hsome₂ h
            refine ⟨b', hb', extendsExcl_trans ?_ hext⟩
            rw [hpa]
            refine ⟨rfl, rfl, rfl, rfl, rfl, ?_⟩
            intro z hz
            simp [hz]
          · have hsome₂ : alookup m₂ q₀ = some b := by
              rw [h₁, alookup_aerase]
              simp [hqr]
              rw [alookup_aset]
              simp [hq, hsome]
            exact ih (fun pr hpr => hcond pr (by simp [hpr])) horig hne hsome₂ h
        · have hsome₂ : alookup m₂ q₀ = some b := by
            rw [h₁, alookup_aset]
            simp [hqr, hsome]
          exact ih (fun pr hpr => hcond pr (by simp [hpr])) horig hne hsome₂ h

/-! ## `fqKind` structure lemmas and the pop case -/

theorem fqKind_append (orig mm : AMap) (l₁ l₂ : List SPath) :
    fqKind orig mm (l₁ ++ l₂) =
      match fqPath orig mm l₁ with
      | some q => kindAt mm q
      | none => fqKind orig mm l₂ := by
  unfold fqKind
  rw [fqPath_append]
  cases fqPath orig mm l₁ <;> rfl

theorem fqPath_cons (orig mm : AMap) (q : SPath) (l : List SPath) :
    fqPath orig mm (q :: l) =
      if qualifiesB orig mm q then some q else fqPath orig mm l := rfl

theorem fqKind_cons (orig mm : AMap) (q : SPath) (l : List SPath) :
    fqKind orig mm (q :: l) =
      if qualifiesB orig mm q then kindAt mm q else fqKind orig mm l := by
  unfold fqKind
  rw [fqPath_cons]
  by_cases h : qualifiesB orig mm q = true
  · simp [h]
  · simp [h]

theorem alookup_none_iff {m : AMap} {p : SPath} :
    alookup m p = none ↔ ∀ pr ∈ m, pr.1 ≠ p := by
  induction m with
  | nil =>
    constructor
    · intro _ pr hpr
      cases hpr
    · intro _
      rfl
  | cons e rest ih =>
    obtain ⟨q, b⟩ := e
    constructor
    · intro h pr hpr
      by_cases hq : q = p
      · simp only [alookup, if_pos hq] at h
        simp at h
      · simp only [alookup, if_neg hq] at h
        rcases List.mem_cons.mp hpr with h₁ | h₂
        · subst h₁
          exact hq
        · exact ih.mp h pr h₂
    · intro h
      have hq : ¬ q = p := h (q, b) (by simp)
      simp only [alookup, if_neg hq]
      exact ih.mpr (fun pr hpr => h pr (List.mem_cons_of_mem _ hpr))

theorem NodupKeys_aerase {m : AMap} (p : SPath) (h : NodupKeys m) :
    NodupKeys (aerase m p) := by
  unfold NodupKeys at h ⊢
  exact h.sublist (List.Sublist.map _ (List.filter_sublist m))

theorem NodupKeys_aset {m : AMap} {p : SPath} {a : Action} (h : NodupKeys m) :
    NodupKeys (aset m p a) := by
  unfold aset
  split
  · unfold NodupKeys at h ⊢
    rw [List.map_map]
    have : ((fun pr : SPath × Action => pr.1) ∘ fun e => if e.1 = p then (p, a) else e) =
        fun pr : SPath × Action => pr.1 := by
      funext e
      by_cases he : e.1 = p <;> simp [he]
    rw [this]
    exact h
  · rename_i hnone
    have hpnone : alookup m p = none := by
      cases hh : alookup m p with
      | none => rfl
      | some b => rw [hh] at hnone; simp at hnone
    unfold NodupKeys at h ⊢
    rw [List.map_append]
    rw [List.nodup_append]
    refine ⟨h, by simp, ?_⟩
    intro x hx
    simp only [List.map_cons, List.map_nil, List.mem_singleton]
    intro hxp
    subst hxp
    obtain ⟨pr, hpr, hpr1⟩ := List.mem_map.mp hx
    exact (alookup_none_iff.mp hpnone pr hpr) hpr1

/-- Erasing an entry whose kind agrees with the kind seen at its own
first qualifying ancestor never changes the kind seen at the first
qualifying ancestor of any path (the walk simply continues past the
erased entry to an ancestor of the same kind). -/
theorem fqKind_aerase_popped {orig m : AMap} {p : SPath} {c : Action}
    (horig : alookup orig p = some c) (_hcne : c.action ≠ .ignore)
    (hb : ∀ b, alookup m p = some b → b.action = c.action)
    (hk : fqKind orig m (parentsOf p) = some c.action) :
    ∀ x, fqKind orig (aerase m p) (parentsOf x) = fqKind orig m (parentsOf x) := by
  intro x
  by_cases hmem : p ∈ parentsOf x
  case neg =>
    apply fqKind_congr
    · intro q hq
      have hqp : q ≠ p := fun hh => hmem (hh ▸ hq)
      exact qual_aerase_ne hqp
    · intro q hq _
      have hqp : q ≠ p := fun hh => hmem (hh ▸ hq)
      rw [alookup_aerase]
      simp [hqp]
  case pos =>
    obtain ⟨pre, hsplit, hlen⟩ := parentsOf_decomp x p hmem
    have hprene : ∀ r ∈ pre, r ≠ p := by
      intro r hr hh
      subst hh
      exact Nat.lt_irrefl _ (hlen r hr)
    have hpostne : ∀ r ∈ parentsOf p, r ≠ p := by
      intro r hr hh
      subst hh
      exact not_mem_parentsOf_self r hr
    rw [hsplit, fqKind_append, fqKind_append]
    have hpre : fqPath orig (aerase m p) pre = fqPath orig m pre :=
      fqPath_congr (fun q hq => qual_aerase_ne (hprene q hq))
    rw [hpre]
    have hpost : fqKind orig (aerase m p) (parentsOf p) = fqKind orig m (parentsOf p) := by
      apply fqKind_congr
      · intro q hq; exact qual_aerase_ne (hpostne q hq)
      · intro q hq _
        rw [alookup_aerase]
        simp [hpostne q hq]
    cases hr : fqPath orig m pre with
    | some r =>
      have hrmem := (fqPath_qual hr).1
      show kindAt (aerase m p) r = kindAt m r
      simp [kindAt, alookup_aerase, hprene r hrmem]
    | none =>
      show fqKind orig (aerase m p) (p :: parentsOf p) =
        fqKind orig m (p :: parentsOf p)
      rw [fqKind_cons, fqKind_cons, qual_aerase_self]
      by_cases hqp : qualifiesB orig m p = true
      · rw [if_pos hqp]
        simp only [Bool.false_eq_true, if_false]
        rw [hpost, hk]
        obtain ⟨hsome, _⟩ := qualifiesB_true_iff.mp hqp
        obtain ⟨b, hbm⟩ := Option.isSome_iff_exists.mp hsome
        simp [kindAt, hbm, hb b hbm]
      · rw [if_neg hqp]
        simp only [Bool.false_eq_true, if_false]
        rw [hpost]

/-! ## The resolver preserves its invariant -/

theorem walk_preserves_inv {fs : FS} {orig : AMap} {p : SPath} {a : Action}
    {m m' : AMap}
    (hpa : alookup orig p = some a)
    (hw : walkParents fs orig p a (parentsOf p) m = .ok m')
    (hinv : ResolveInv orig m) : ResolveInv orig m' := by
  obtain ⟨hsub, hnd, hkinds, hfq⟩ := hinv
  rcases walk_shapes hw with hsame | ⟨q, mq, hfqp, hmq, ⟨oq, hoq, hoqne⟩, hcases⟩
  · rw [hsame]; exact ⟨hsub, hnd, hkinds, hfq⟩
  have hmqkind : mq.action = oq.action := (hkinds q oq mq hoq hoqne hmq).1
  rcases hcases with ⟨h₁, hkind⟩ | ⟨pa, hpadef, h₁, hign, hcopy⟩ | ⟨h₁, hign, hmove⟩
  · -- pop: `m' = aerase m p` with `mq.action = a.action`
    subst h₁
    have hane : a.action ≠ .ignore := by
      rw [← hkind, hmqkind]; exact hoqne
    have hfqm : fqKind orig m (parentsOf p) = some a.action := by
      unfold fqKind
      rw [hfqp]
      simp [kindAt, hmq, hkind]
    refine ⟨?_, NodupKeys_aerase p hnd, ?_, ?_⟩
    · intro x hx
      rw [alookup_aerase] at hx
      by_cases hxp : x = p
      · simp [hxp] at hx
      · simp [hxp] at hx
        exact hsub x hx
    · intro x c b hc hcne hbx
      rw [alookup_aerase] at hbx
      by_cases hxp : x = p
      · simp [hxp] at hbx
      · simp [hxp] at hbx
        exact hkinds x c b hc hcne hbx
    · intro x
      have hbimp : ∀ b, alookup m p = some b → b.action = a.action := by
        intro b hbp
        exact (hkinds p a b hpa hane hbp).1
      rw [fqKind_aerase_popped hpa hane hbimp hfqm x]
      exact hfq x
  · -- exclusion: `m' = aerase (aset m q pa) p` with `a.action = ignore`
    subst h₁
    have hignres : alookup orig p = none ∨
        ∃ c, alookup orig p = some c ∧ c.action = .ignore :=
      Or.inr ⟨a, hpa, hign⟩
    have hpak : pa.action = mq.action := by rw [hpadef]
    refine ⟨?_, NodupKeys_aerase p (NodupKeys_aset hnd), ?_, ?_⟩
    · intro x hx
      rw [alookup_aerase] at hx
      by_cases hxp : x = p
      · simp [hxp] at hx
      · simp [hxp, alookup_aset] at hx
        by_cases hxq : x = q
        · subst hxq; simp [hoq]
        · simp [hxq] at hx
          exact hsub x hx
    · intro x c b hc hcne hbx
      rw [alookup_aerase] at hbx
      by_cases hxp : x = p
      · simp [hxp] at hbx
      · simp [hxp, alookup_aset] at hbx
        by_cases hxq : x = q
        · subst hxq
          rw [if_pos rfl] at hbx
          have hbpa : b = pa := (Option.some.inj hbx).symm
          subst hbpa
          refine extendsExcl_trans (hkinds x c mq hc hcne hmq) ?_
          rw [hpadef]
          exact ⟨rfl, rfl, rfl, rfl, rfl, fun z hz => by simp [hz]⟩
        · rw [if_neg hxq] at hbx
          exact hkinds x c b hc hcne hbx
    · intro x
      rw [fqKind_aerase_ignored hignres, fqKind_aset_samekind hmq hpak]
      exact hfq x
  · -- conversion: `m' = aset m p (deleteAction a.source a.priority)`
    subst h₁
    have hignres : alookup orig p = none ∨
        ∃ c, alookup orig p = some c ∧ c.action = .ignore :=
      Or.inr ⟨a, hpa, hign⟩
    refine ⟨?_, NodupKeys_aset hnd, ?_, ?_⟩
    · intro x hx
      rw [alookup_aset] at hx
      by_cases hxp : x = p
      · subst hxp; simp [hpa]
      · simp [hxp] at hx
        exact hsub x hx
    · intro x c b hc hcne hbx
      rw [alookup_aset] at hbx
      by_cases hxp : x = p
      · subst hxp
        rw [hpa] at hc
        cases hc
        exact absurd hign hcne
      · rw [if_neg hxp] at hbx
        exact hkinds x c b hc hcne hbx
    · intro x
      rw [fqKind_aset_ignored hignres]
      exact hfq x

theorem convertGo_preserves_inv {fs : FS} {orig : AMap} :
    ∀ {rest : List (SPath × Action)} {m m' : AMap},
      NodupKeys orig → SrcOk orig →
      (∀ pr ∈ rest, pr ∈ orig) →
      ResolveInv orig m →
      convertGo fs orig rest m = .ok m' → ResolveInv orig m' := by
  intro rest
  induction rest with
  | nil =>
    intro m m' _ _ _ hinv h
    simp [convertGo] at h
    rw [← h]; exact hinv
  | cons pr rest ih =>
    intro m m' hnd hsrc hmem hinv h
    obtain ⟨p, a⟩ := pr
    cases hw : walkParents fs orig p a (parentsOf a.source) m with
    | error e => simp [convertGo, hw] at h
    | ok m₂ =>
      simp only [convertGo, hw] at h
      have hpmem : (p, a) ∈ orig := hmem (p, a) (by simp)
      have hpa : alookup orig p = some a := alookup_eq_some_of_mem hnd hpmem
      have hsrca : a.source = p := hsrc (p, a) hpmem
      rw [hsrca] at hw
      exact ih hnd hsrc (fun pr hpr => hmem pr (by simp [hpr]))
        (walk_preserves_inv hpa hw hinv) h

theorem ResolveInv_init (orig : AMap) (hnd : NodupKeys orig) :
    ResolveInv orig orig := by
  refine ⟨fun x hx => hx, hnd, ?_, fun x => rfl⟩
  intro x c b hc _ hb
  rw [hc] at hb
  cases hb
  exact extendsExcl_refl c

/-! ## Outcome of a single resolver step -/

theorem convertGo_cons (fs : FS) (orig : AMap) (p : SPath) (a : Action)
    (rest : List (SPath × Action)) (m : AMap) :
    convertGo fs orig ((p, a) :: rest) m =
      match walkParents fs orig p a (parentsOf a.source) m with
      | .ok m₂ => convertGo fs orig rest m₂
      | .error e => .error e := rfl

theorem fqKind_unpack {orig m : AMap} {ps : List SPath} {κ : SourceAction}
    (h : fqKind orig m ps = some κ) :
    ∃ q mq, fqPath orig m ps = some q ∧ alookup m q = some mq ∧ mq.action = κ := by
  unfold fqKind at h
  cases hq : fqPath orig m ps with
  | none => rw [hq] at h; cases h
  | some q =>
    rw [hq] at h
    have h₁ : kindAt m q = some κ := h
    unfold kindAt at h₁
    cases hl : alookup m q with
    | none => rw [hl] at h₁; simp at h₁
    | some mq =>
      rw [hl] at h₁
      have h₂ : some mq.action = some κ := h₁
      exact ⟨q, mq, rfl, hl, Option.some.inj h₂⟩

/-- What a successful step of the resolver loop at `(p, a)` does to the
modified mapping, as decided by the kind at the first qualifying ancestor
of `p` in the current mapping. -/
theorem step_outcome {fs : FS} {orig : AMap} {p : SPath} {a : Action} {m m₂ : AMap}
    (hw : walkParents fs orig p a (parentsOf p) m = .ok m₂)
    (hinv : ResolveInv orig m) :
    (fqKind orig m (parentsOf p) = none ∧ m₂ = m) ∨
    (∃ κ, fqKind orig m (parentsOf p) = some κ ∧ κ ≠ .ignore ∧
      ((κ = a.action ∧ m₂ = aerase m p) ∨
       (κ ≠ a.action ∧ a.action ≠ .ignore ∧ m₂ = m) ∨
       (a.action = .ignore ∧ κ = .copy ∧
         ∃ q pa, fqPath orig m (parentsOf p) = some q ∧
           m₂ = aerase (aset m q pa) p) ∨
       (a.action = .ignore ∧ κ = .move ∧
         m₂ = aset m p (deleteAction a.source a.priority)) ∨
       (a.action = .ignore ∧ κ ≠ .copy ∧ κ ≠ .move ∧ m₂ = m))) := by
  obtain ⟨hsub, hnd, hkinds, hfq⟩ := hinv
  cases hfqp : fqPath orig m (parentsOf p) with
  | none =>
    rw [walk_eq_none hfqp] at hw
    left
    refine ⟨?_, (Except.ok.inj hw).symm⟩
    unfold fqKind
    rw [hfqp]
  | some q =>
    obtain ⟨hmem, hqual⟩ := fqPath_qual hfqp
    rw [qualifiesB_true_iff] at hqual
    obtain ⟨hsome, oq, horig, hoqne⟩ := hqual
    obtain ⟨mq, hmq⟩ := Option.isSome_iff_exists.mp hsome
    have hκne : mq.action ≠ .ignore := by
      rw [(hkinds q oq mq horig hoqne hmq).1]
      exact hoqne
    have hκ : fqKind orig m (parentsOf p) = some mq.action := by
      unfold fqKind
      rw [hfqp]
      simp [kindAt, hmq]
    rw [walk_eq_some hfqp hmq] at hw
    unfold stepParent at hw
    right
    refine ⟨mq.action, hκ, hκne, ?_⟩
    by_cases hkind : mq.action = a.action
    · rw [if_pos hkind] at hw
      have hign : ¬ a.action = .ignore := by
        rw [← hkind]; exact hκne
      rw [if_neg hign] at hw
      exact Or.inl ⟨hkind, (Except.ok.inj hw).symm⟩
    · rw [if_neg hkind] at hw
      by_cases hign : a.action = .ignore
      · rw [if_pos hign] at hw
        by_cases hc : mq.action = .copy
        · rw [if_pos hc] at hw
          cases hisf : mq.ignoreSubFolder fs p with
          | error e => rw [hisf] at hw; cases hw
          | ok pa =>
            rw [hisf] at hw
            exact Or.inr (Or.inr (Or.inl
              ⟨hign, hc, q, pa, rfl, (Except.ok.inj hw).symm⟩))
        · rw [if_neg hc] at hw
          by_cases hm : mq.action = .move
          · rw [if_pos hm] at hw
            exact Or.inr (Or.inr (Or.inr (Or.inl
              ⟨hign, hm, (Except.ok.inj hw).symm⟩)))
          · rw [if_neg hm] at hw
            exact Or.inr (Or.inr (Or.inr (Or.inr
              ⟨hign, hc, hm, (Except.ok.inj hw).symm⟩)))
      · rw [if_neg hign] at hw
        exact Or.inr (Or.inl ⟨hkind, hign, (Except.ok.inj hw).symm⟩)

/-! ## Behaviour of the resolver at a single declared key -/

theorem resolveAtKey {fs : FS} {actions out : AMap} {p : SPath} {a : Action}
    (hnd : NodupKeys actions) (hsrc : SrcOk actions)
    (hpa : alookup actions p = some a)
    (hok : convertEncapsulatedActions fs actions = .ok out) :
    (a.action ≠ .ignore → fqKind actions actions (parentsOf p) = some a.action →
      alookup out p = none) ∧
    (a.action ≠ .ignore → fqKind actions actions (parentsOf p) ≠ some a.action →
      ∃ b, alookup out p = some b ∧ extendsExcl a b) ∧
    (a.action = .ignore → fqKind actions actions (parentsOf p) = some .copy →
      alookup out p = none) ∧
    (a.action = .ignore → fqKind actions actions (parentsOf p) = some .move →
      alookup out p = some (deleteAction a.source a.priority)) ∧
    (a.action = .ignore → fqKind actions actions (parentsOf p) ≠ some .copy →
      fqKind actions actions (parentsOf p) ≠ some .move →
      alookup out p = some a) := by
  obtain ⟨l₁, l₂, hsplit, hne₁⟩ := alookup_split hpa
  have hne₂ : ∀ pr ∈ l₂, pr.1 ≠ p := by
    have hkeys : List.Nodup (l₁.map (fun pr => pr.1) ++
        p :: l₂.map (fun pr => pr.1)) := by
      have : actions.map (fun pr => pr.1) =
          l₁.map (fun pr => pr.1) ++ p :: l₂.map (fun pr => pr.1) := by
        rw [hsplit]; simp
      rw [NodupKeys, this] at hnd
      exact hnd
    have hmid := List.nodup_middle.mp hkeys
    rw [List.nodup_cons] at hmid
    intro pr hpr hprp
    apply hmid.1
    rw [List.mem_append]
    right
    exact List.mem_map.mpr ⟨pr, hpr, hprp⟩
  have hndA : NodupKeys actions := hnd
  have hok' : convertGo fs actions (l₁ ++ (p, a) :: l₂) actions = .ok out := by
    rw [← hsplit]
    exact hok
  rw [convertGo_append] at hok'
  cases hc₁ : convertGo fs actions l₁ actions with
  | error e => rw [hc₁] at hok'; cases hok'
  | ok m₁ =>
    rw [hc₁] at hok'
    have hok₂ : convertGo fs actions ((p, a) :: l₂) m₁ = .ok out := hok'
    clear hok'
    have hmem₁ : ∀ pr ∈ l₁, pr ∈ actions := by
      intro pr hpr
      rw [hsplit]
      exact List.mem_append.mpr (Or.inl hpr)
    have hmem₂ : ∀ pr ∈ l₂, pr ∈ actions := by
      intro pr hpr
      rw [hsplit]
      simp [hpr]
    have hinv₁ : ResolveInv actions m₁ :=
      convertGo_preserves_inv hndA hsrc hmem₁ (ResolveInv_init actions hndA) hc₁
    have hsrca : a.source = p := hsrc (p, a) (by rw [hsplit]; simp)
    rw [convertGo_cons, hsrca] at hok₂
    cases hw : walkParents fs actions p a (parentsOf p) m₁ with
    | error e => rw [hw] at hok₂; cases hok₂
    | ok m₂ =>
      rw [hw] at hok₂
      have hok' : convertGo fs actions l₂ m₂ = .ok out := hok₂
      clear hok₂
      have hfq₁ : ∀ x, fqKind actions m₁ (parentsOf x) =
          fqKind actions actions (parentsOf x) := hinv₁.2.2.2
      have houtcome := step_outcome hw hinv₁
      -- the entry of `p` in `m₁`, before its own step
      refine ⟨?_, ?_, ?_, ?_, ?_⟩
      · -- (i) same kind at the nearest non-Ignore ancestor: popped
        intro hane hK
        have hKm : fqKind actions m₁ (parentsOf p) = some a.action := by
          rw [hfq₁ p]; exact hK
        have hm₂ : m₂ = aerase m₁ p := by
          rcases houtcome with ⟨hnone, _⟩ | ⟨κ, hκ, hκne, hcases⟩
          · rw [hKm] at hnone; cases hnone
          · rw [hKm] at hκ
            have hκa : κ = a.action := (Option.some.inj hκ).symm
            subst hκa
            rcases hcases with ⟨_, h⟩ | ⟨hne, _, _⟩ | ⟨hig, _, _⟩ | ⟨hig, _, _⟩ |
              ⟨hig, _, _, _⟩
            · exact h
            · exact absurd rfl hne
            · exact absurd hig hane
            · exact absurd hig hane
            · exact absurd hig hane
        have hnone₂ : alookup m₂ p = none := by
          rw [hm₂, alookup_aerase]
          simp
        refine convertGo_none_stable ?_ hnone₂ hok'
        intro pr hpr
        exact Or.inl (hne₂ pr hpr)
      · -- (ii) different kind: survives with a possibly larger exclusion list
        intro hane hKne
        obtain ⟨b₁, hb₁, hext₁⟩ :=
          convertGo_excl_mono hne₁ hpa hane hpa hc₁
        have hm₂ : m₂ = m₁ := by
          rcases houtcome with ⟨_, h⟩ | ⟨κ, hκ, hκne, hcases⟩
          · exact h
          · rcases hcases with ⟨hκa, _⟩ | ⟨_, _, h⟩ | ⟨hig, _, _⟩ | ⟨hig, _, _⟩ |
              ⟨hig, _, _, _⟩
            · subst hκa
              rw [hfq₁ p] at hκ
              exact absurd hκ hKne
            · exact h
            · exact absurd hig hane
            · exact absurd hig hane
            · exact absurd hig hane
        rw [hm₂] at hok'
        obtain ⟨b, hb, hext⟩ := convertGo_excl_mono hne₂ hpa hane hb₁ hok'
        exact ⟨b, hb, extendsExcl_trans hext₁ hext⟩
      · -- (iii) Ignore under Copy: exclusion registered, entry popped
        intro hig hK
        have hKm : fqKind actions m₁ (parentsOf p) = some .copy := by
          rw [hfq₁ p]; exact hK
        have hm₂ : ∃ q pa, m₂ = aerase (aset m₁ q pa) p := by
          rcases houtcome with ⟨hnone, _⟩ | ⟨κ, hκ, hκne, hcases⟩
          · rw [hKm] at hnone; cases hnone
          · rw [hKm] at hκ
            have hκa : κ = .copy := (Option.some.inj hκ).symm
            subst hκa
            rcases hcases with ⟨hκa, _⟩ | ⟨_, hne, _⟩ | ⟨_, _, q, pa, _, h⟩ |
              ⟨_, hmv, _⟩ | ⟨_, hcne, _, _⟩
            · rw [hig] at hκa; exact absurd hκa hκne
            · exact absurd hig hne
            · exact ⟨q, pa, h⟩
            · cases hmv
            · exact absurd rfl hcne
        obtain ⟨q, pa, hm₂⟩ := hm₂
        have hnone₂ : alookup m₂ p = none := by
          rw [hm₂, alookup_aerase]
          simp
        refine convertGo_none_stable ?_ hnone₂ hok'
        intro pr hpr
        exact Or.inl (hne₂ pr hpr)
      · -- (iv) Ignore under Move: converted to a Delete of the same
        -- source and priority
        intro hig hK
        have hKm : fqKind actions m₁ (parentsOf p) = some .move := by
          rw [hfq₁ p]; exact hK
        have hm₂ : m₂ = aset m₁ p (deleteAction a.source a.priority) := by
          rcases houtcome with ⟨hnone, _⟩ | ⟨κ, hκ, hκne, hcases⟩
          · rw [hKm] at hnone; cases hnone
          · rw [hKm] at hκ
            have hκa : κ = .move := (Option.some.inj hκ).symm
            subst hκa
            rcases hcases with ⟨hκa, _⟩ | ⟨_, hne, _⟩ | ⟨_, hcp, _⟩ |
              ⟨_, _, h⟩ | ⟨_, _, hmne, _⟩
            · rw [hig] at hκa; exact absurd hκa hκne
            · exact absurd hig hne
            · cases hcp
            · exact h
            · exact absurd rfl hmne
        have hsome₂ : alookup m₂ p = some (deleteAction a.source a.priority) := by
          rw [hm₂, alookup_aset]
          simp
        exact convertGo_frozen_ignore hne₂ hpa hig hsome₂ hok'
      · -- (v) Ignore with no qualifying Copy/Move ancestor: untouched
        intro hig hKc hKm
        have hsome₁ : alookup m₁ p = some a :=
          convertGo_frozen_ignore hne₁ hpa hig hpa hc₁
        have hm₂ : m₂ = m₁ := by
          rcases houtcome with ⟨_, h⟩ | ⟨κ, hκ, hκne, hcases⟩
          · exact h
          · rcases hcases with ⟨hκa, _⟩ | ⟨_, _, h⟩ | ⟨_, hcp, _⟩ |
              ⟨_, hmv, _⟩ | ⟨_, _, _, h⟩
            · rw [hig] at hκa; exact absurd hκa hκne
            · exact h
            · rw [hcp] at hκ
              rw [hfq₁ p] at hκ
              exact absurd hκ hKc
            · rw [hmv] at hκ
              rw [hfq₁ p] at hκ
              exact absurd hκ hKm
            · exact h
        rw [hm₂] at hok'
        exact convertGo_frozen_ignore hne₂ hpa hig hsome₁ hok'

/-! ## Transfer of the first qualifying ancestor to later mappings -/

theorem qual_false_transfer {orig m : AMap} {r : SPath}
    (h : qualifiesB orig orig r = false) : qualifiesB orig m r = false := by
  unfold qualifiesB at h ⊢
  cases ho : alookup orig r with
  | none => simp [ho]
  | some c =>
    rw [ho] at h
    have h₁ : decide (c.action ≠ SourceAction.ignore) = false := by
      simpa using h
    show ((alookup m r).isSome && decide (c.action ≠ SourceAction.ignore)) = false
    rw [h₁, Bool.and_false]

theorem fqPath_preserved_of_member {orig m : AMap} {ps : List SPath} {q : SPath}
    (hq : fqPath orig orig ps = some q)
    (hsome : (alookup m q).isSome) :
    fqPath orig m ps = some q := by
  obtain ⟨d₁, d₂, hsplit, hfalse⟩ := fqPath_splitAt hq
  obtain ⟨_, hqual⟩ := fqPath_qual hq
  rw [qualifiesB_true_iff] at hqual
  obtain ⟨_, oq, horig, hoqne⟩ := hqual
  have hnone : fqPath orig m d₁ = none :=
    fqPath_eq_none (fun r hr => qual_false_transfer (hfalse r hr))
  have hqm : qualifiesB orig m q = true :=
    qualifiesB_true_iff.mpr ⟨hsome, oq, horig, hoqne⟩
  rw [hsplit, fqPath_append, hnone, fqPath_cons, if_pos hqm]

/-- Exclusion-monotonicity at a key that may itself still be processed:
its entry either disappears or keeps every exclusion it had. -/
theorem convertGo_excl_mono2 {fs : FS} {orig : AMap} {q₀ : SPath} {oq₀ : Action} :
    ∀ {rest : List (SPath × Action)} {m m' : AMap} {b : Action},
      (∀ pr ∈ rest, pr.1 = q₀ → pr.2.action ≠ .ignore) →
      alookup orig q₀ = some oq₀ → oq₀.action ≠ .ignore →
      (alookup m q₀ = none ∨ ∃ b₁, alookup m q₀ = some b₁ ∧ extendsExcl b b₁) →
      convertGo fs orig rest m = .ok m' →
      alookup m' q₀ = none ∨ ∃ b', alookup m' q₀ = some b' ∧ extendsExcl b b' := by
  intro rest
  induction rest with
  | nil =>
    intro m m' b _ _ _ hP h
    simp [convertGo] at h
    rw [← h]
    exact hP
  | cons pr rest ih =>
    intro m m' b hcond horig hne hP h
    obtain ⟨r, rAct⟩ := pr
    cases hw : walkParents fs orig r rAct (parentsOf rAct.source) m with
    | error e => simp [convertGo, hw] at h
    | ok m₂ =>
      simp only [convertGo, hw] at h
      have hcond' : ∀ pr ∈ rest, pr.1 = q₀ → pr.2.action ≠ .ignore :=
        fun pr hpr => hcond pr (by simp [hpr])
      refine ih hcond' horig hne ?_ h
      rcases walk_shapes hw with hsame | ⟨q, mq, _, hmq, _, hcases⟩
      · rw [hsame]; exact hP
      · rcases hcases with ⟨h₁, _⟩ | ⟨pa, hpa, h₁, _, _⟩ | ⟨h₁, hig, _⟩
        · rw [h₁, alookup_aerase]
          by_cases hqr : q₀ = r
          · exact Or.inl (by simp [hqr])
          · simp only [if_neg hqr]
            exact hP
        · rw [h₁, alookup_aerase]
          by_cases hqr : q₀ = r
          · exact Or.inl (by simp [hqr])
          · simp only [if_neg hqr]
            rw [alookup_aset]
            by_cases hqq : q₀ = q
            · subst hqq
              rcases hP with hnone | ⟨b₁, hb₁, hext₁⟩
              · rw [hnone] at hmq; cases hmq
              · rw [hb₁] at hmq
                have : mq = b₁ := (Option.some.inj hmq).symm
                subst this
                rw [if_pos rfl]
                refine Or.inr ⟨pa, rfl, extendsExcl_trans hext₁ ?_⟩
                rw [hpa]
                exact ⟨rfl, rfl, rfl, rfl, rfl, fun z hz => by simp [hz]⟩
            · rw [if_neg hqq]
              exact hP
        · rw [h₁, alookup_aset]
          by_cases hqr : q₀ = r
          · subst hqr
            exact absurd hig (hcond (q₀, rAct) (by simp) rfl)
          · rw [if_neg hqr]
            exact hP

/-!
## Claim theorems for the resolver

`nearestAncestor actions p` is the nearest ancestor of `p` carrying a
declared action whose kind is not `Ignore` — the ancestor the
specification's resolver rule speaks about.
-/

/-- Claim C2: a declared `Ignore` whose nearest non-`Ignore`-declaring
ancestor holds a `Move` action is mapped, in the resolved output, to a
`Delete` action on the same source path with the same priority (and no
target and no exclusions), so that the descendant is deleted rather than
relocated. -/
theorem claim2_ignore_under_move_becomes_delete
    (fs : FS) (actions out : AMap) (p q : SPath) (a oq : Action)
    (hnd : NodupKeys actions) (hsrc : SrcOk actions)
    (hpa : alookup actions p = some a) (hig : a.action = .ignore)
    (hq : nearestAncestor actions p = some q)
    (hoq : alookup actions q = some oq) (hmv : oq.action = .move)
    (hok : convertEncapsulatedActions fs actions = .ok out) :
    ∃ d, alookup out p = some d ∧ d.action = .delete ∧ d.source = a.source ∧
      d.priority = a.priority ∧ d.target = none ∧ d.ignoreSubFolders = [] := by
  have hK : fqKind actions actions (parentsOf p) = some .move := by
    unfold fqKind
    unfold nearestAncestor at hq
    rw [hq]
    simp [kindAt, hoq, hmv]
  have hout := (resolveAtKey hnd hsrc hpa hok).2.2.2.1 hig hK
  exact ⟨deleteAction a.source a.priority, hout, rfl, rfl, rfl, rfl, rfl⟩

/-- Witness for C2 on the concrete declarations `moveIgnores`. -/
theorem claim2_witness :
    NodupKeys moveIgnores ∧ SrcOk moveIgnores ∧
    alookup moveIgnores ["m","p"] = some (mkIgnore ["m","p"] 2) ∧
    nearestAncestor moveIgnores ["m","p"] = some ["m"] ∧
    ∃ out, convertEncapsulatedActions [] moveIgnores = .ok out ∧
      ∃ d, alookup out ["m","p"] = some d ∧ d.action = .delete ∧
        d.source = ["m","p"] ∧ d.priority = 2 := by
  have hnd : NodupKeys moveIgnores := by unfold NodupKeys; decide
  have hsrc : SrcOk moveIgnores := by unfold SrcOk; decide
  refine ⟨hnd, hsrc, rfl, rfl, ?_⟩
  obtain ⟨d, hd, h₁, h₂, h₃, _, _⟩ :=
    claim2_ignore_under_move_becomes_delete [] moveIgnores
      [ (["m"], mkMove ["m"] ["t"] 1),
        (["m","p"], deleteAction ["m","p"] 2),
        (["m","p","q"], deleteAction ["m","p","q"] 3) ]
      ["m","p"] ["m"] (mkIgnore ["m","p"] 2) (mkMove ["m"] ["t"] 1)
      hnd hsrc rfl rfl rfl rfl rfl rfl
  exact ⟨_, rfl, d, hd, h₁, h₂, h₃⟩

/-- Claim C1 (amended): for every declared `(path, action)` pair whose
nearest ancestor with a declared non-`Ignore` action has that same kind,
the pair's action is absent from the resolved output; the ancestor's
action survives (with all fields preserved up to a grown exclusion list)
unless it is itself dropped as redundant, which happens exactly when its
own nearest non-`Ignore`-declaring ancestor again shares its kind. -/
theorem claim1_same_kind_encapsulation
    (fs : FS) (actions out : AMap) (p q : SPath) (a oq : Action)
    (hnd : NodupKeys actions) (hsrc : SrcOk actions)
    (hpa : alookup actions p = some a)
    (hq : nearestAncestor actions p = some q)
    (hoq : alookup actions q = some oq) (hkind : oq.action = a.action)
    (hok : convertEncapsulatedActions fs actions = .ok out) :
    alookup out p = none ∧
    (∀ b, alookup out q = some b → extendsExcl oq b) ∧
    (alookup out q = none →
      ∃ r or₀, nearestAncestor actions q = some r ∧
        alookup actions r = some or₀ ∧ or₀.action = oq.action) := by
  have hq' : fqPath actions actions (parentsOf p) = some q := hq
  have hqual := (fqPath_qual hq').2
  rw [qualifiesB_true_iff] at hqual
  obtain ⟨_, oq', hoq', hne'⟩ := hqual
  have hoqeq : oq' = oq := by
    rw [hoq] at hoq'
    exact (Option.some.inj hoq').symm
  rw [hoqeq] at hne'
  have hane : a.action ≠ .ignore := by
    rw [← hkind]; exact hne'
  have hK : fqKind actions actions (parentsOf p) = some a.action := by
    unfold fqKind
    rw [hq']
    simp [kindAt, hoq, hkind]
  refine ⟨(resolveAtKey hnd hsrc hpa hok).1 hane hK, ?_, ?_⟩
  · intro b hb
    by_cases hKq : fqKind actions actions (parentsOf q) = some oq.action
    · have := (resolveAtKey hnd hsrc hoq hok).1 hne' hKq
      rw [this] at hb
      cases hb
    · obtain ⟨b', hb', hext⟩ := (resolveAtKey hnd hsrc hoq hok).2.1 hne' hKq
      rw [hb'] at hb
      have : b = b' := (Option.some.inj hb).symm
      subst this
      exact hext
  · intro hnone
    by_cases hKq : fqKind actions actions (parentsOf q) = some oq.action
    · obtain ⟨r, mr, hfqr, hlr, hkr⟩ := fqKind_unpack hKq
      exact ⟨r, mr, hfqr, hlr, hkr⟩
    · obtain ⟨b', hb', _⟩ := (resolveAtKey hnd hsrc hoq hok).2.1 hne' hKq
      rw [hnone] at hb'
      cases hb'

/-- Witness for (amended) C1 on the two upper levels of `chainCopies`. -/
theorem claim1_witness :
    NodupKeys chainCopies ∧ SrcOk chainCopies ∧
    alookup chainCopies ["a","b"] = some (mkCopy ["a","b"] ["t2"] 2) ∧
    nearestAncestor chainCopies ["a","b"] = some ["a"] ∧
    alookup chainCopies ["a"] = some (mkCopy ["a"] ["t"] 1) ∧
    ∃ out, convertEncapsulatedActions [] chainCopies = .ok out ∧
      alookup out ["a","b"] = none ∧
      ∀ b, alookup out ["a"] = some b → extendsExcl (mkCopy ["a"] ["t"] 1) b := by
  have hnd : NodupKeys chainCopies := by unfold NodupKeys; decide
  have hsrc : SrcOk chainCopies := by unfold SrcOk; decide
  refine ⟨hnd, hsrc, rfl, rfl, rfl, ?_⟩
  obtain ⟨h₁, h₂, _⟩ :=
    claim1_same_kind_encapsulation [] chainCopies
      [ (["a"], mkCopy ["a"] ["t"] 1) ]
      ["a","b"] ["a"] (mkCopy ["a","b"] ["t2"] 2) (mkCopy ["a"] ["t"] 1)
      hnd hsrc rfl rfl rfl rfl rfl
  exact ⟨_, rfl, h₁, h₂⟩

/-- Counterexample to C1 as stated: in the chain of `Copy` declarations
on `a`, `a/b` and `a/b/c`, the pair at `a/b/c` has `a/b` as its nearest
non-`Ignore`-declaring ancestor, with the same kind `Copy`; the
descendant is indeed dropped, but the ancestor's action does **not**
survive in the resolved output (it is itself dropped as redundant under
`a`), contradicting "the ancestor's action survives". -/
theorem claim1_counterexample :
    (∃ a₂, alookup chainCopies ["a","b","c"] = some a₂ ∧ a₂.action = .copy) ∧
    nearestAncestor chainCopies ["a","b","c"] = some ["a","b"] ∧
    (∃ oq, alookup chainCopies ["a","b"] = some oq ∧ oq.action = .copy) ∧
    ∃ out, convertEncapsulatedActions [] chainCopies = .ok out ∧
      alookup out ["a","b","c"] = none ∧ alookup out ["a","b"] = none :=
  ⟨⟨_, rfl, rfl⟩, rfl, ⟨_, rfl, rfl⟩, _, rfl, rfl, rfl⟩

/-- Claim C3 (amended): a declared `Ignore` whose nearest
non-`Ignore`-declaring ancestor `q` holds a `Copy` is removed from the
resolved output, and the resolver registers the path as an excluded
descendant on the `Copy` action covering it at processing time; whenever
the ancestor's action survives to the output, it carries the exclusion.
(If that ancestor is itself later dropped as redundant, the recorded
exclusion is lost with it — see the counterexample to the original
claim.) -/
theorem claim3_ignore_under_copy
    (fs : FS) (actions out : AMap) (p q : SPath) (a oq : Action)
    (hnd : NodupKeys actions) (hsrc : SrcOk actions)
    (hpa : alookup actions p = some a) (hig : a.action = .ignore)
    (hq : nearestAncestor actions p = some q)
    (hoq : alookup actions q = some oq) (hcp : oq.action = .copy)
    (hok : convertEncapsulatedActions fs actions = .ok out) :
    alookup out p = none ∧
    ∀ b, alookup out q = some b → p ∈ b.ignoreSubFolders := by
  have hq' : fqPath actions actions (parentsOf p) = some q := hq
  have hQne : oq.action ≠ .ignore := by rw [hcp]; simp
  have hK : fqKind actions actions (parentsOf p) = some .copy := by
    unfold fqKind
    rw [hq']
    simp [kindAt, hoq, hcp]
  refine ⟨(resolveAtKey hnd hsrc hpa hok).2.2.1 hig hK, ?_⟩
  intro b hb
  have hqp : q ≠ p := by
    intro hh
    subst hh
    exact not_mem_parentsOf_self q (fqPath_qual hq').1
  have hl₂cond : ∀ (l : List (SPath × Action)), (∀ pr ∈ l, pr ∈ actions) →
      ∀ pr ∈ l, pr.1 = q → pr.2.action ≠ .ignore := by
    intro l hsub pr hpr hprq
    have hmem := hsub pr hpr
    have := alookup_eq_some_of_mem hnd (by
      have : pr = (pr.1, pr.2) := rfl
      rw [this] at hmem
      exact hmem)
    rw [hprq, hoq] at this
    have heq : pr.2 = oq := (Option.some.inj this).symm
    rw [heq, hcp]
    simp
  -- split the declarations at the processed pair
  obtain ⟨l₁, l₂, hsplit, hne₁⟩ := alookup_split hpa
  have hok' : convertGo fs actions (l₁ ++ (p, a) :: l₂) actions = .ok out := by
    rw [← hsplit]
    exact hok
  rw [convertGo_append] at hok'
  cases hc₁ : convertGo fs actions l₁ actions with
  | error e => rw [hc₁] at hok'; cases hok'
  | ok m₁ =>
    rw [hc₁] at hok'
    have hok₂ : convertGo fs actions ((p, a) :: l₂) m₁ = .ok out := hok'
    clear hok'
    have hmem₁ : ∀ pr ∈ l₁, pr ∈ actions := by
      intro pr hpr
      rw [hsplit]
      exact List.mem_append.mpr (Or.inl hpr)
    have hmem₂ : ∀ pr ∈ l₂, pr ∈ actions := by
      intro pr hpr
      rw [hsplit]
      simp [hpr]
    have hinv₁ : ResolveInv actions m₁ :=
      convertGo_preserves_inv hnd hsrc hmem₁ (ResolveInv_init actions hnd) hc₁
    have hsrca : a.source = p := hsrc (p, a) (by rw [hsplit]; simp)
    rw [convertGo_cons, hsrca] at hok₂
    cases hw : walkParents fs actions p a (parentsOf p) m₁ with
    | error e => rw [hw] at hok₂; cases hok₂
    | ok m₂ =>
      rw [hw] at hok₂
      have hok₃ : convertGo fs actions l₂ m₂ = .ok out := hok₂
      clear hok₂
      cases hmq₁ : alookup m₁ q with
      | none =>
        -- then `q` would be gone from the output as well, contradiction
        have hnone₂ : alookup m₂ q = none := by
          rcases walk_shapes hw with hsame | ⟨q', mq', _, hmq', _, hcases⟩
          · rw [hsame]; exact hmq₁
          · have hqq' : q ≠ q' := by
              intro hh
              subst hh
              rw [hmq₁] at hmq'
              cases hmq'
            rcases hcases with ⟨h₁, _⟩ | ⟨pa, _, h₁, _, _⟩ | ⟨h₁, _, _⟩
            · rw [h₁, alookup_aerase]
              simp [hqp, hmq₁]
            · rw [h₁, alookup_aerase]
              simp only [if_neg hqp]
              rw [alookup_aset, if_neg hqq', hmq₁]
            · rw [h₁, alookup_aset, if_neg hqp, hmq₁]
        have hout : alookup out q = none := by
          refine convertGo_none_stable ?_ hnone₂ hok₃
          intro pr hpr
          by_cases hprq : pr.1 = q
          · exact Or.inr (hl₂cond l₂ hmem₂ pr hpr hprq)
          · exact Or.inl hprq
        rw [hout] at hb
        cases hb
      | some mq₁ =>
        have hfqp₁ : fqPath actions m₁ (parentsOf p) = some q :=
          fqPath_preserved_of_member hq' (by simp [hmq₁])
        have hkmq : mq₁.action = .copy := by
          rw [(hinv₁.2.2.1 q oq mq₁ hoq hQne hmq₁).1, hcp]
        rw [walk_eq_some hfqp₁ hmq₁] at hw
        unfold stepParent at hw
        have hkne : ¬ mq₁.action = a.action := by
          rw [hkmq, hig]
          simp
        rw [if_neg hkne, if_pos hig, if_pos hkmq] at hw
        unfold Action.ignoreSubFolder at hw
        cases hf : isFile fs mq₁.source with
        | true => rw [if_pos hf] at hw; cases hw
        | false =>
          rw [if_neg (by rw [hf]; simp)] at hw
          have hm₂ : m₂ = aerase (aset m₁ q
              { mq₁ with ignoreSubFolders := mq₁.ignoreSubFolders ++ [p] }) p :=
            (Except.ok.inj hw).symm
          have hsome₂ : alookup m₂ q = some
              { mq₁ with ignoreSubFolders := mq₁.ignoreSubFolders ++ [p] } := by
            rw [hm₂, alookup_aerase, if_neg hqp, alookup_aset, if_pos rfl]
          have hmono := convertGo_excl_mono2 (hl₂cond l₂ hmem₂) hoq hQne
            (Or.inr ⟨_, hsome₂, extendsExcl_refl _⟩) hok₃
          rcases hmono with hnone | ⟨b', hb', hext⟩
          · rw [hnone] at hb
            cases hb
          · rw [hb'] at hb
            have : b = b' := (Option.some.inj hb).symm
            subst this
            have hmem : p ∈ ({ mq₁ with
                ignoreSubFolders := mq₁.ignoreSubFolders ++ [p] } :
                  Action).ignoreSubFolders := by
              simp
            exact hext.2.2.2.2.2 p hmem

/-- Witness for (amended) C3 on `copyIgnore`. -/
theorem claim3_witness :
    NodupKeys copyIgnore ∧ SrcOk copyIgnore ∧
    alookup copyIgnore ["a","b","c"] = some (mkIgnore ["a","b","c"] 3) ∧
    nearestAncestor copyIgnore ["a","b","c"] = some ["a"] ∧
    alookup copyIgnore ["a"] = some (mkCopy ["a"] ["t"] 1) ∧
    ∃ out, convertEncapsulatedActions [] copyIgnore = .ok out ∧
      alookup out ["a","b","c"] = none ∧
      ∀ b, alookup out ["a"] = some b → ["a","b","c"] ∈ b.ignoreSubFolders := by
  have hnd : NodupKeys copyIgnore := by unfold NodupKeys; decide
  have hsrc : SrcOk copyIgnore := by unfold SrcOk; decide
  refine ⟨hnd, hsrc, rfl, rfl, rfl, ?_⟩
  obtain ⟨h₁, h₂⟩ :=
    claim3_ignore_under_copy [] copyIgnore
      [ (["a"], { mkCopy ["a"] ["t"] 1 with
          ignoreSubFolders := [["a","b","c"]] }) ]
      ["a","b","c"] ["a"] (mkIgnore ["a","b","c"] 3) (mkCopy ["a"] ["t"] 1)
      hnd hsrc rfl rfl rfl rfl rfl rfl
  exact ⟨_, rfl, h₁, h₂⟩

/-- Counterexample to C3 as stated: with the `Ignore` on `a/b/c` declared
before the `Copy` declarations on `a/b` and `a`, the resolver first
registers the exclusion on `a/b`, then drops `a/b` as redundant under
`a`: the resolved output removes the `Ignore`, but **no** surviving
action carries `a/b/c` as an excluded descendant, so the excluded path
would still be copied by the surviving `Copy` on `a`. -/
theorem claim3_counterexample :
    alookup copyIgnoreFirst ["a","b","c"] = some (mkIgnore ["a","b","c"] 3) ∧
    nearestAncestor copyIgnoreFirst ["a","b","c"] = some ["a","b"] ∧
    (∃ oq, alookup copyIgnoreFirst ["a","b"] = some oq ∧ oq.action = .copy) ∧
    convertEncapsulatedActions [] copyIgnoreFirst =
      .ok [(["a"], mkCopy ["a"] ["t"] 1)] ∧
    ∀ pr ∈ [((["a"] : SPath), mkCopy ["a"] ["t"] 1)],
      ["a","b","c"] ∉ pr.2.ignoreSubFolders := by
  refine ⟨rfl, rfl, ⟨_, rfl, rfl⟩, rfl, by decide⟩

/-! ## Idempotence of the resolver (claim C8) -/

theorem fqPath_congr2 {orig₁ m₁ orig₂ m₂ : AMap} {ps : List SPath}
    (h : ∀ q ∈ ps, qualifiesB orig₁ m₁ q = qualifiesB orig₂ m₂ q) :
    fqPath orig₁ m₁ ps = fqPath orig₂ m₂ ps := by
  induction ps with
  | nil => rfl
  | cons q rest ih =>
    have hq := h q (by simp)
    rw [fqPath_cons, fqPath_cons, hq]
    split <;> [rfl; exact ih fun r hr => h r (by simp [hr])]

/-- Without Ignore-under-Move conversions, every entry of the resolver's
modified mapping keeps the kind and source of its declaration. -/
theorem convertGo_kindsAll {fs : FS} {actions : AMap}
    (hnd : NodupKeys actions) (hsrc : SrcOk actions)
    (hnmc : NoMoveConv actions) :
    ∀ {rest : List (SPath × Action)} {m m' : AMap},
      (∀ pr ∈ rest, pr ∈ actions) →
      ResolveInv actions m →
      (∀ x b, alookup m x = some b → ∃ c, alookup actions x = some c ∧
        b.action = c.action ∧ b.source = c.source) →
      convertGo fs actions rest m = .ok m' →
      ∀ x b, alookup m' x = some b → ∃ c, alookup actions x = some c ∧
        b.action = c.action ∧ b.source = c.source := by
  intro rest
  induction rest with
  | nil =>
    intro m m' _ _ hall h
    simp [convertGo] at h
    rw [← h]
    exact hall
  | cons pr rest ih =>
    intro m m' hmem hinv hall h
    obtain ⟨p, a⟩ := pr
    have hpmem : (p, a) ∈ actions := hmem (p, a) (by simp)
    have hpa : alookup actions p = some a := alookup_eq_some_of_mem hnd hpmem
    have hsrca : a.source = p := hsrc (p, a) hpmem
    cases hw : walkParents fs actions p a (parentsOf a.source) m with
    | error e => simp [convertGo, hw] at h
    | ok m₂ =>
      simp only [convertGo, hw] at h
      rw [hsrca] at hw
      have hinv₂ : ResolveInv actions m₂ := walk_preserves_inv hpa hw hinv
      refine ih (fun pr hpr => hmem pr (by simp [hpr])) hinv₂ ?_ h
      rcases walk_shapes hw with hsame | ⟨q, mq, hfqp, hmq, _, hcases⟩
      · rw [hsame]; exact hall
      rcases hcases with ⟨h₁, _⟩ | ⟨pa, hpadef, h₁, _, _⟩ | ⟨h₁, hig, hmv⟩
      · intro x b hx
        rw [h₁, alookup_aerase] at hx
        by_cases hxp : x = p
        · simp [hxp] at hx
        · rw [if_neg hxp] at hx
          exact hall x b hx
      · intro x b hx
        rw [h₁, alookup_aerase] at hx
        by_cases hxp : x = p
        · simp [hxp] at hx
        · rw [if_neg hxp, alookup_aset] at hx
          by_cases hxq : x = q
          · subst hxq
            rw [if_pos rfl] at hx
            have hb : b = pa := (Option.some.inj hx).symm
            subst hb
            obtain ⟨c, hc, hk, hs⟩ := hall x mq hmq
            refine ⟨c, hc, ?_, ?_⟩
            · rw [hpadef]; exact hk
            · rw [hpadef]; exact hs
          · rw [if_neg hxq] at hx
            exact hall x b hx
      · -- the Move-conversion branch is impossible under `NoMoveConv`
        exfalso
        have hfqm : fqKind actions m (parentsOf p) = some .move := by
          unfold fqKind
          rw [hfqp]
          simp [kindAt, hmq, hmv]
        rw [hinv.2.2.2 p] at hfqm
        obtain ⟨q₀, mq₀, hq₀, hl₀, hk₀⟩ := fqKind_unpack hfqm
        exact hnmc (p, a) hpmem hig q₀ hq₀ mq₀ hl₀ hk₀

/-- Claim C8 (amended): the resolver is idempotent on every declaration
set in which no `Ignore` action has a `Move` at its nearest
non-`Ignore`-declaring ancestor (no Ignore-to-Delete conversion occurs):
resolving the resolver's own output returns that output unchanged. -/
theorem claim8_resolver_idempotent
    (fs : FS) (actions out : AMap)
    (hnd : NodupKeys actions) (hsrc : SrcOk actions)
    (hnmc : NoMoveConv actions)
    (hok : convertEncapsulatedActions fs actions = .ok out) :
    convertEncapsulatedActions fs out = .ok out := by
  have hinvOut : ResolveInv actions out :=
    convertGo_preserves_inv hnd hsrc (fun pr h => h)
      (ResolveInv_init actions hnd) hok
  have hkAll : ∀ x b, alookup out x = some b → ∃ c, alookup actions x = some c ∧
      b.action = c.action ∧ b.source = c.source := by
    refine convertGo_kindsAll hnd hsrc hnmc (fun pr h => h)
      (ResolveInv_init actions hnd) ?_ hok
    intro x b hx
    exact ⟨b, hx, rfl, rfl⟩
  have hndOut : NodupKeys out := hinvOut.2.1
  have hsrcOut : SrcOk out := by
    intro pr hpr
    have hlk : alookup out pr.1 = some pr.2 := by
      have hpr' : (pr.1, pr.2) ∈ out := hpr
      exact alookup_eq_some_of_mem hndOut hpr'
    obtain ⟨c, hc, _, hs⟩ := hkAll pr.1 pr.2 hlk
    rw [hs]
    exact hsrc (pr.1, c) (mem_of_alookup hc)
  have hqual : ∀ r, qualifiesB out out r = qualifiesB actions out r := by
    intro r
    unfold qualifiesB
    cases hr : alookup out r with
    | none => simp
    | some b =>
      obtain ⟨c, hc, hbc, _⟩ := hkAll r b hr
      rw [hc]
      show ((some b).isSome && decide (b.action ≠ SourceAction.ignore)) =
        ((some b).isSome && decide (c.action ≠ SourceAction.ignore))
      rw [hbc]
  have hmain : ∀ (l : List (SPath × Action)), (∀ pr ∈ l, pr ∈ out) →
      convertGo fs out l out = .ok out := by
    intro l
    induction l with
    | nil => intro _; rfl
    | cons pr rest ih =>
      intro hl
      obtain ⟨p, b⟩ := pr
      have hpmem : (p, b) ∈ out := hl _ (by simp)
      have hpb : alookup out p = some b := alookup_eq_some_of_mem hndOut hpmem
      have hbsrc : b.source = p := hsrcOut (p, b) hpmem
      rw [convertGo_cons, hbsrc]
      obtain ⟨c, hc, hbc, _⟩ := hkAll p b hpb
      have hwid : walkParents fs out p b (parentsOf p) out = .ok out := by
        cases hfq : fqPath out out (parentsOf p) with
        | none => exact walk_eq_none hfq
        | some q =>
          obtain ⟨hqmem, hq⟩ := fqPath_qual hfq
          rw [qualifiesB_true_iff] at hq
          obtain ⟨hsome, oq, hoq, hoqne⟩ := hq
          rw [walk_eq_some hfq hoq]
          have hfqa : fqPath actions out (parentsOf p) = some q := by
            rw [← fqPath_congr2 (fun r _ => hqual r)]
            exact hfq
          have hKa : fqKind actions actions (parentsOf p) = some oq.action := by
            rw [← hinvOut.2.2.2 p]
            unfold fqKind
            rw [hfqa]
            simp [kindAt, hoq]
          unfold stepParent
          have hkne : ¬ oq.action = b.action := by
            intro hkeq
            by_cases hbig : b.action = .ignore
            · rw [hbig] at hkeq
              exact hoqne hkeq
            · have hcne : c.action ≠ .ignore := by rw [← hbc]; exact hbig
              have := (resolveAtKey hnd hsrc hc hok).1 hcne
                (by rw [hKa, hkeq, hbc])
              rw [this] at hpb
              cases hpb
          rw [if_neg hkne]
          by_cases hbig : b.action = .ignore
          · rw [if_pos hbig]
            have hcig : c.action = .ignore := by rw [← hbc]; exact hbig
            have hnc : ¬ oq.action = .copy := by
              intro hcp
              have := (resolveAtKey hnd hsrc hc hok).2.2.1 hcig
                (by rw [hKa, hcp])
              rw [this] at hpb
              cases hpb
            have hnm : ¬ oq.action = .move := by
              intro hmv
              obtain ⟨q₀, mq₀, hq₀, hl₀, hk₀⟩ := fqKind_unpack (hKa.trans
                (by rw [hmv]))
              exact hnmc (p, c) (mem_of_alookup hc) hcig q₀ hq₀ mq₀ hl₀ hk₀
            rw [if_neg hnc, if_neg hnm]
          · rw [if_neg hbig]
      rw [hwid]
      exact ih (fun pr hpr => hl pr (by simp [hpr]))
  exact hmain out (fun pr h => h)

/-- Counterexample to C8 as stated: resolving `moveIgnores` converts both
nested `Ignore`s into `Delete`s; resolving that output again drops the
deeper converted `Delete` (now redundant under the nearer converted
`Delete`), so the second resolution is **not** equivalent to the first. -/
theorem claim8_counterexample :
    ∃ out out₂,
      convertEncapsulatedActions [] moveIgnores = .ok out ∧
      convertEncapsulatedActions [] out = .ok out₂ ∧
      (alookup out ["m","p","q"]).isSome = true ∧
      alookup out₂ ["m","p","q"] = none :=
  ⟨_, _, rfl, rfl, rfl, rfl⟩

/-- Witness for (amended) C8 on `chainCopies` (which declares no
`Ignore` at all, so no Move conversion can occur). -/
theorem claim8_witness :
    NodupKeys chainCopies ∧ SrcOk chainCopies ∧ NoMoveConv chainCopies ∧
    ∃ out, convertEncapsulatedActions [] chainCopies = .ok out ∧
      convertEncapsulatedActions [] out = .ok out := by
  have hnd : NodupKeys chainCopies := by unfold NodupKeys; decide
  have hsrc : SrcOk chainCopies := by unfold SrcOk; decide
  have hnmc : NoMoveConv chainCopies := by
    intro pr hpr hig q hfq oq hoq
    simp only [chainCopies, List.mem_cons, List.not_mem_nil, or_false] at hpr
    rcases hpr with h | h | h <;> rw [h] at hig <;> exact absurd hig (by decide)
  refine ⟨hnd, hsrc, hnmc, ?_⟩
  exact ⟨_, rfl,
    claim8_resolver_idempotent [] chainCopies
      [ (["a"], mkCopy ["a"] ["t"] 1) ] hnd hsrc hnmc rfl⟩

/-! ## Dry-run behaviour of the executor -/

theorem ensureParent_dry (t : SPath) (fs : FS) :
    ensureParent t true fs = (fs, none) := by
  unfold ensureParent
  split
  · rfl
  · rfl

theorem migrateWithSourceName_dry
    {recurse : Action → FS → FS × Option Err}
    (hrec : ∀ a₂ fs₂, (recurse a₂ fs₂).1 = fs₂) (a : Action) (t : SPath)
    (fs : FS) : (migrateWithSourceName recurse a t fs).1 = fs := by
  unfold migrateWithSourceName
  cases Action.init a.action a.source (some (t ++ [lastName a.source])) a.priority with
  | error e => rfl
  | ok a₁ => exact hrec _ fs

theorem elemsLoop_dry {recurse : Action → FS → FS × Option Err}
    (hrec : ∀ a₂ fs₂, (recurse a₂ fs₂).1 = fs₂) (a : Action) (t : SPath) :
    ∀ (names : List String) (fs : FS), (elemsLoop recurse a t names fs).1 = fs := by
  intro names
  induction names with
  | nil => intro fs; rfl
  | cons n rest ih =>
    intro fs
    unfold elemsLoop
    split
    · exact ih fs
    · cases Action.init a.action (a.source ++ [n]) (some (t ++ [n])) a.priority with
      | error e => rfl
      | ok a₁ =>
        simp only
        cases hr : recurse (if isDir fs (a.source ++ [n]) then
            { a₁ with ignoreSubFolders := a.ignoreSubFolders } else a₁) fs with
        | mk fs₁ e =>
          have hfs₁ : fs₁ = fs := by
            have := hrec (if isDir fs (a.source ++ [n]) then
              { a₁ with ignoreSubFolders := a.ignoreSubFolders } else a₁) fs
            rw [hr] at this
            exact this
          cases e with
          | none =>
            simp only
            rw [ih fs₁, hfs₁]
          | some e₀ => simp only; exact hfs₁

theorem migrateElements_dry {recurse : Action → FS → FS × Option Err}
    (hrec : ∀ a₂ fs₂, (recurse a₂ fs₂).1 = fs₂) (a : Action) (t : SPath)
    (fs : FS) : (migrateElements recurse a t fs).1 = fs := by
  unfold migrateElements
  cases getEntry fs a.source with
  | none => rfl
  | some e =>
    cases e with
    | file => rfl
    | dir ch => exact elemsLoop_dry hrec a t (ch.map (fun x => x.1)) fs

theorem migrateRun_dry {recurse : Action → FS → FS × Option Err}
    (hrec : ∀ a₂ fs₂, (recurse a₂ fs₂).1 = fs₂) (a : Action) (fk : FuncKind)
    (fs : FS) : (migrateRun recurse a fk true fs).1 = fs := by
  unfold migrateRun
  cases a.target with
  | none => rfl
  | some t =>
    simp only
    split
    · rfl
    · split
      · rfl
      · split
        · split
          · cases hm : migrateElements recurse a t fs with
            | mk fs₁ e =>
              have hfs₁ : fs₁ = fs := by
                have := migrateElements_dry hrec a t fs
                rw [hm] at this
                exact this
              cases e with
              | some e₀ => simp only; exact hfs₁
              | none =>
                simp only
                rw [if_neg (by simp)]
                exact hfs₁
          · exact migrateWithSourceName_dry hrec a t fs
        · split
          · exact migrateWithSourceName_dry hrec a t fs
          · rw [ensureParent_dry]
            simp

theorem performGo_dry_fst :
    ∀ (fuel : Nat) (a : Action) (fs : FS), (performGo fuel true a fs).1 = fs := by
  intro fuel
  induction fuel with
  | zero => intro a fs; rfl
  | succ n ih =>
    intro a fs
    unfold performGo
    cases a.action with
    | delete => unfold deleteRun; rw [if_pos rfl]
    | copy => exact migrateRun_dry (fun a₂ fs₂ => ih a₂ fs₂) a _ fs
    | move => exact migrateRun_dry (fun a₂ fs₂ => ih a₂ fs₂) a _ fs
    | ignore => rfl
    | notDefined => rfl

/-- Claim C6: for every action and every filesystem state, performing the
action with dry-run set leaves the filesystem completely unchanged: no
entry is created, removed, copied, moved or otherwise written. -/
theorem claim6_dry_run_leaves_fs_unchanged :
    ∀ (fuel : Nat) (a : Action) (fs : FS), (performGo fuel true a fs).1 = fs :=
  performGo_dry_fst

/-! ## A dry run never reaches a mutating filesystem call -/

theorem migrateWithSourceName_dry_err
    {recurse : Action → FS → FS × Option Err}
    (hrec : ∀ a₂ fs₂, (recurse a₂ fs₂).2 ≠ some .fsError) (a : Action)
    (t : SPath) (fs : FS) :
    (migrateWithSourceName recurse a t fs).2 ≠ some .fsError := by
  unfold migrateWithSourceName
  cases hin : Action.init a.action a.source (some (t ++ [lastName a.source]))
      a.priority with
  | error e =>
    unfold Action.init at hin
    split at hin
    · simp only [Except.error.injEq] at hin
      rw [← hin]
      simp
    · cases hin
  | ok a₁ => exact hrec _ fs

theorem elemsLoop_dry_err {recurse : Action → FS → FS × Option Err}
    (hrec : ∀ a₂ fs₂, (recurse a₂ fs₂).2 ≠ some .fsError) (a : Action)
    (t : SPath) :
    ∀ (names : List String) (fs : FS),
      (elemsLoop recurse a t names fs).2 ≠ some .fsError := by
  intro names
  induction names with
  | nil => intro fs; simp [elemsLoop]
  | cons n rest ih =>
    intro fs
    unfold elemsLoop
    split
    · exact ih fs
    · cases hin : Action.init a.action (a.source ++ [n]) (some (t ++ [n]))
          a.priority with
      | error e =>
        unfold Action.init at hin
        split at hin
        · simp only [Except.error.injEq] at hin
          rw [← hin]
          simp
        · cases hin
      | ok a₁ =>
        simp only
        cases hr : recurse (if isDir fs (a.source ++ [n]) then
            { a₁ with ignoreSubFolders := a.ignoreSubFolders } else a₁) fs with
        | mk fs₁ e =>
          cases e with
          | none => simp only; exact ih fs₁
          | some e₀ =>
            simp only
            have := hrec (if isDir fs (a.source ++ [n]) then
              { a₁ with ignoreSubFolders := a.ignoreSubFolders } else a₁) fs
            rw [hr] at this
            exact this

theorem migrateElements_dry_err {recurse : Action → FS → FS × Option Err}
    (hrec : ∀ a₂ fs₂, (recurse a₂ fs₂).2 ≠ some .fsError) (a : Action)
    (t : SPath) (fs : FS) :
    (migrateElements recurse a t fs).2 ≠ some .fsError := by
  unfold migrateElements
  cases getEntry fs a.source with
  | none => simp
  | some e =>
    cases e with
    | file => simp
    | dir ch => exact elemsLoop_dry_err hrec a t (ch.map (fun x => x.1)) fs

theorem migrateRun_dry_err {recurse : Action → FS → FS × Option Err}
    (hrec : ∀ a₂ fs₂, (recurse a₂ fs₂).2 ≠ some .fsError) (a : Action)
    (fk : FuncKind) (fs : FS) :
    (migrateRun recurse a fk true fs).2 ≠ some .fsError := by
  unfold migrateRun
  cases a.target with
  | none => simp
  | some t =>
    simp only
    split
    · simp
    · split
      · simp
      · split
        · split
          · cases hm : migrateElements recurse a t fs with
            | mk fs₁ e =>
              cases e with
              | some e₀ =>
                simp only
                have := migrateElements_dry_err hrec a t fs
                rw [hm] at this
                exact this
              | none =>
                simp only
                rw [if_neg (by simp)]
                simp
          · exact migrateWithSourceName_dry_err hrec a t fs
        · split
          · exact migrateWithSourceName_dry_err hrec a t fs
          · rw [ensureParent_dry]
            simp

theorem performGo_dry_err :
    ∀ (fuel : Nat) (a : Action) (fs : FS),
      (performGo fuel true a fs).2 ≠ some .fsError := by
  intro fuel
  induction fuel with
  | zero => intro a fs; simp [performGo]
  | succ n ih =>
    intro a fs
    unfold performGo
    cases a.action with
    | delete => unfold deleteRun; rw [if_pos rfl]; simp
    | copy => exact migrateRun_dry_err (fun a₂ fs₂ => ih a₂ fs₂) a _ fs
    | move => exact migrateRun_dry_err (fun a₂ fs₂ => ih a₂ fs₂) a _ fs
    | ignore => simp
    | notDefined => simp

theorem ignoreSubFolder_error {fs : FS} {a : Action} {p : SPath} {e : Err}
    (h : Action.ignoreSubFolder fs a p = .error e) : e = .invalidArg := by
  unfold Action.ignoreSubFolder at h
  split at h
  · exact (Except.error.inj h).symm
  · cases h

theorem stepParent_error {fs : FS} {p : SPath} {a : Action} {q : SPath}
    {mq : Action} {m : AMap} {e : Err}
    (h : stepParent fs p a q mq m = .error e) : e = .invalidArg := by
  unfold stepParent at h
  by_cases hig : a.action = .ignore
  · rw [if_pos hig] at h
    by_cases hc : mq.action = .copy
    · rw [if_pos hc] at h
      cases hisf : mq.ignoreSubFolder fs p with
      | error e₀ =>
        rw [hisf] at h
        have he : e₀ = e := Except.error.inj h
        rw [← he]
        exact ignoreSubFolder_error hisf
      | ok pa =>
        rw [hisf] at h
        simp at h
    · rw [if_neg hc] at h
      by_cases hm : mq.action = .move
      · rw [if_pos hm] at h
        simp at h
      · rw [if_neg hm] at h
        simp at h
  · rw [if_neg hig] at h
    simp at h

theorem walkParents_error {fs : FS} {orig : AMap} {p : SPath} {a : Action} :
    ∀ {ps : List SPath} {m : AMap} {e : Err},
      walkParents fs orig p a ps m = .error e → e = .invalidArg := by
  intro ps
  induction ps with
  | nil => intro m e h; cases h
  | cons q rest ih =>
    intro m e h
    unfold walkParents at h
    cases h₁ : alookup m q with
    | none => rw [h₁] at h; exact ih h
    | some mq =>
      rw [h₁] at h
      cases h₂ : alookup orig q with
      | none => rw [h₂] at h; exact ih h
      | some oq =>
        rw [h₂] at h
        have h' : (if oq.action ≠ SourceAction.ignore then stepParent fs p a q mq m
            else walkParents fs orig p a rest m) = .error e := h
        by_cases hne : oq.action ≠ SourceAction.ignore
        · rw [if_pos hne] at h'
          exact stepParent_error h'
        · rw [if_neg hne] at h'
          exact ih h'

theorem convertGo_error {fs : FS} {orig : AMap} :
    ∀ {l : List (SPath × Action)} {m : AMap} {e : Err},
      convertGo fs orig l m = .error e → e = .invalidArg := by
  intro l
  induction l with
  | nil => intro m e h; cases h
  | cons pr rest ih =>
    intro m e h
    obtain ⟨p, a⟩ := pr
    rw [convertGo_cons] at h
    cases hw : walkParents fs orig p a (parentsOf a.source) m with
    | error e₀ =>
      rw [hw] at h
      have : e₀ = e := Except.error.inj h
      rw [← this]
      exact walkParents_error hw
    | ok m₂ =>
      rw [hw] at h
      exact ih h

theorem runActions_dry :
    ∀ (fuel : Nat) (l : List Action) (fs : FS),
      (runActions fuel true l fs).1 = fs ∧
      (runActions fuel true l fs).2 ≠ some .fsError := by
  intro fuel l
  induction l with
  | nil =>
    intro fs
    refine ⟨rfl, ?_⟩
    simp [runActions]
  | cons a rest ih =>
    intro fs
    unfold runActions
    cases hp : performGo fuel true a fs with
    | mk fs₁ e =>
      have hfs₁ : fs₁ = fs := by
        have := performGo_dry_fst fuel a fs
        rw [hp] at this
        exact this
      cases e with
      | none =>
        simp only
        rw [hfs₁]
        exact ih fs
      | some e₀ =>
        simp only
        refine ⟨hfs₁, ?_⟩
        have := performGo_dry_err fuel a fs
        rw [hp] at this
        exact this

/-- Claim C7 (amended): a dry run performs no mutation at all — the
filesystem is returned unchanged and no error produced by a mutating
filesystem call can occur — but it is **not** free of `TargetExists`:
the pre-flight target check of `_migrate` runs before the dry-run guard
(see the counterexample). -/
theorem claim7_dry_run_no_mutation_errors :
    ∀ (fuel : Nat) (actions : AMap) (fs : FS),
      (performActions fuel actions true fs).1 = fs ∧
      (performActions fuel actions true fs).2 ≠ some .fsError := by
  intro fuel actions fs
  unfold performActions
  cases hc : convertEncapsulatedActions fs actions with
  | error e =>
    constructor
    · rfl
    · have he : e = .invalidArg := convertGo_error hc
      rw [he]
      simp
  | ok m => exact runActions_dry fuel (prioritizeActions m) fs

/-- Counterexample to C7 as stated: copying file `a` onto the existing
file `b` **in dry-run mode** still raises `TargetExists` — the check
`self.target.exists() and not self.target.is_dir()` in `_migrate` runs
before any dry-run guard — so a dry run is not free of `TargetExists`
(though the filesystem is untouched). -/
theorem claim7_counterexample :
    performActions 10 copyOntoFile true twoFiles =
      (twoFiles, some .targetExists) := rfl

/-! ## The pre-flight target check (claim C5) -/

/-- Claim C5: for every `Copy` or `Move` action whose target path exists
and is not a directory, performing the action fails with `TargetExists`
before any filesystem mutation takes place (the returned filesystem is
the input one, unchanged); in particular copying or moving a file onto an
existing file path fails with `TargetExists`. -/
theorem claim5_target_exists_blocks
    (fuel : Nat) (dryRun : Bool) (a : Action) (t : SPath) (fs : FS)
    (hact : a.action = .copy ∨ a.action = .move)
    (htgt : a.target = some t)
    (hex : pexists fs t = true) (hdir : isDir fs t = false) :
    performGo (fuel + 1) dryRun a fs = (fs, some .targetExists) := by
  have hcond : pexists fs t = true ∧ ¬ isDir fs t = true :=
    ⟨hex, fun hh => by rw [hdir] at hh; cases hh⟩
  have hmig : ∀ (recurse : Action → FS → FS × Option Err) (fk : FuncKind),
      migrateRun recurse a fk dryRun fs = (fs, some .targetExists) := by
    intro recurse fk
    unfold migrateRun
    rw [htgt]
    simp only
    rw [if_pos hcond]
  unfold performGo
  rcases hact with h | h <;> rw [h]
  · exact hmig _ _
  · exact hmig _ _

/-- Witness for C5: copying the file `a` onto the existing file `b`. -/
theorem claim5_witness :
    (mkCopy ["a"] ["b"] 1).action = .copy ∧
    (mkCopy ["a"] ["b"] 1).target = some ["b"] ∧
    isFile twoFiles ["a"] = true ∧ isFile twoFiles ["b"] = true ∧
    pexists twoFiles ["b"] = true ∧ isDir twoFiles ["b"] = false ∧
    performGo 5 false (mkCopy ["a"] ["b"] 1) twoFiles =
      (twoFiles, some .targetExists) :=
  ⟨rfl, rfl, rfl, rfl, rfl, rfl,
    claim5_target_exists_blocks 4 false (mkCopy ["a"] ["b"] 1) ["b"] twoFiles
      (Or.inl rfl) rfl rfl rfl⟩

/-! ## Directory-to-existing-directory migration (claim C4) -/

theorem isFile_eq_false_of_isDir {fs : FS} {p : SPath}
    (h : isDir fs p = true) : isFile fs p = false := by
  unfold isDir at h
  unfold isFile
  cases hg : getEntry fs p with
  | none => rw [hg] at h
  | some e =>
    cases e with
    | file => rw [hg] at h; exact absurd h (by simp)
    | dir ch => rfl

theorem performGo_succ (fuel : Nat) (dryRun : Bool) (a : Action) (fs : FS) :
    performGo (fuel + 1) dryRun a fs =
      (match a.action with
       | .delete => deleteRun a dryRun fs
       | .copy => copyRun (fun a₂ fs₂ => performGo fuel dryRun a₂ fs₂) a dryRun fs
       | .move => moveRun (fun a₂ fs₂ => performGo fuel dryRun a₂ fs₂) a dryRun fs
       | .ignore => (fs, none)
       | .notDefined => (fs, some .notDefined)) := rfl

/-- Claim C4 (amended): for every `Copy` or `Move` action whose source is
an existing directory, whose target is an existing directory, and whose
target-is-file flag is unset (the claim fails without this proviso, see
the counterexample): if source and target name match case-insensitively,
the action is performed element-wise (each direct child of the source not
in the exclusion set is migrated by a synthesized child action to
`target/childName`, then a `Move` removes the emptied source directory on
a real run); otherwise the action is re-targeted to `target/source.name`
and performed as that single nested action. -/
theorem claim4_dir_to_existing_dir
    (fuel : Nat) (dryRun : Bool) (a : Action) (t : SPath) (fs : FS)
    (hact : a.action = .copy ∨ a.action = .move)
    (htgt : a.target = some t)
    (hsdir : isDir fs a.source = true)
    (htdir : isDir fs t = true)
    (htif : a.targetIsFile = false) :
    (strLower (lastName a.source) = strLower (lastName t) →
      performGo (fuel + 1) dryRun a fs =
        (match migrateElements (fun a₂ fs₂ => performGo fuel dryRun a₂ fs₂)
            a t fs with
         | (fs₁, some e) => (fs₁, some e)
         | (fs₁, none) =>
           if a.action = .move ∧ dryRun = false then rmdirRun fs₁ a.source
           else (fs₁, none))) ∧
    (strLower (lastName a.source) ≠ strLower (lastName t) →
      performGo (fuel + 1) dryRun a fs =
        performGo fuel dryRun (retargetedAction a t) fs) := by
  have hg₁ : ¬ (pexists fs t = true ∧ ¬ isDir fs t = true) := by
    intro hh
    exact hh.2 htdir
  have hg₂ : ¬ (isDir fs a.source = true ∧ a.targetIsFile = true) := by
    intro hh
    rw [htif] at hh
    cases hh.2
  have hg₃ : isDir fs a.source = true ∧ isDir fs t = true := ⟨hsdir, htdir⟩
  have hmig : ∀ (fk : FuncKind),
      migrateRun (fun a₂ fs₂ => performGo fuel dryRun a₂ fs₂) a fk dryRun fs =
        (if strLower (lastName a.source) = strLower (lastName t) then
          (match migrateElements (fun a₂ fs₂ => performGo fuel dryRun a₂ fs₂)
              a t fs with
           | (fs₁, some e) => (fs₁, some e)
           | (fs₁, none) =>
             if a.action = .move ∧ dryRun = false then rmdirRun fs₁ a.source
             else (fs₁, none))
         else performGo fuel dryRun (retargetedAction a t) fs) := by
    intro fk
    unfold migrateRun
    rw [htgt]
    simp only
    rw [if_neg hg₁, if_neg hg₂, if_pos hg₃]
    by_cases hname : strLower (lastName a.source) = strLower (lastName t)
    · rw [if_pos hname, if_pos hname]
    · rw [if_neg hname, if_neg hname]
      unfold migrateWithSourceName
      have hinit : Action.init a.action a.source
          (some (t ++ [lastName a.source])) a.priority =
            .ok (retargetedAction a t) := by
        unfold Action.init
        rw [if_neg (by intro hh; cases hh.2)]
        rfl
      rw [hinit]
      simp only
      rw [if_neg (by rw [isFile_eq_false_of_isDir hsdir]; simp)]
  have hperf : performGo (fuel + 1) dryRun a fs =
      (if strLower (lastName a.source) = strLower (lastName t) then
        (match migrateElements (fun a₂ fs₂ => performGo fuel dryRun a₂ fs₂)
            a t fs with
         | (fs₁, some e) => (fs₁, some e)
         | (fs₁, none) =>
           if a.action = .move ∧ dryRun = false then rmdirRun fs₁ a.source
           else (fs₁, none))
       else performGo fuel dryRun (retargetedAction a t) fs) := by
    rcases hact with h | h
    · have hred : performGo (fuel + 1) dryRun a fs =
          copyRun (fun a₂ fs₂ => performGo fuel dryRun a₂ fs₂) a dryRun fs := by
        rw [performGo_succ, h]
      rw [hred]
      unfold copyRun
      exact hmig _
    · have hred : performGo (fuel + 1) dryRun a fs =
          moveRun (fun a₂ fs₂ => performGo fuel dryRun a₂ fs₂) a dryRun fs := by
        rw [performGo_succ, h]
      rw [hred]
      unfold moveRun
      exact hmig _
  constructor
  · intro hname
    rw [hperf, if_pos hname]
  · intro hname
    rw [hperf, if_neg hname]

/-- Witness for (amended) C4: copying `/src/foo` to the existing
directory `/dst/foo` (same name) is performed element-wise — the child
file ends up merged directly at `/dst/foo/f.txt` — while copying to
`/dst/bar` (different name) creates `/dst/bar/foo/f.txt`. -/
theorem claim4_witness :
    (mkCopy ["src","foo"] ["dst","foo"] 1).action = .copy ∧
    isDir mergeNestFS ["src","foo"] = true ∧
    isDir mergeNestFS ["dst","foo"] = true ∧
    (mkCopy ["src","foo"] ["dst","foo"] 1).targetIsFile = false ∧
    strLower (lastName ["src","foo"]) = strLower (lastName ["dst","foo"]) ∧
    performGo 6 false (mkCopy ["src","foo"] ["dst","foo"] 1) mergeNestFS =
      (match migrateElements (fun a₂ fs₂ => performGo 5 false a₂ fs₂)
          (mkCopy ["src","foo"] ["dst","foo"] 1) ["dst","foo"] mergeNestFS with
       | (fs₁, some e) => (fs₁, some e)
       | (fs₁, none) =>
         if (mkCopy ["src","foo"] ["dst","foo"] 1).action = .move ∧ false = false
         then rmdirRun fs₁ ["src","foo"] else (fs₁, none)) ∧
    pexists (performGo 6 false (mkCopy ["src","foo"] ["dst","foo"] 1)
      mergeNestFS).1 ["dst","foo","f.txt"] = true ∧
    pexists (performGo 6 false (mkCopy ["src","foo"] ["dst","bar"] 1)
      mergeNestFS).1 ["dst","bar","foo","f.txt"] = true :=
  ⟨rfl, rfl, rfl, rfl, rfl,
    (claim4_dir_to_existing_dir 5 false (mkCopy ["src","foo"] ["dst","foo"] 1)
      ["dst","foo"] mergeNestFS (Or.inl rfl) rfl rfl rfl rfl).1 rfl,
    by decide, by decide⟩

/-- Counterexample to C4 as stated: source and target are existing
directories with the same (extension-like) name `a.b`, so the claim
demands an element-wise merge of the children; the code instead fails
immediately with `Cannot migrate a directory to a file` because the
constructor classified the target as a file from its suffix. -/
theorem claim4_counterexample :
    (mkCopy ["s","a.b"] ["t","a.b"] 0).action = .copy ∧
    isDir suffixDirs ["s","a.b"] = true ∧
    isDir suffixDirs ["t","a.b"] = true ∧
    strLower (lastName ["s","a.b"]) = strLower (lastName ["t","a.b"]) ∧
    performGo 5 false (mkCopy ["s","a.b"] ["t","a.b"] 0) suffixDirs =
      (suffixDirs, some .dirToFile) :=
  ⟨rfl, rfl, rfl, rfl, rfl⟩

/-! ## The scheduler (claim C9) -/

theorem insertDesc_perm (a : Action) (l : List Action) :
    List.Perm (insertDesc a l) (a :: l) := by
  induction l with
  | nil => exact List.Perm.refl _
  | cons b rest ih =>
    unfold insertDesc
    by_cases h : a.priority < b.priority
    · rw [if_pos h]
      exact List.Perm.trans (List.Perm.cons b ih) (List.Perm.swap a b rest)
    · rw [if_neg h]

theorem insertDesc_pairwise (a : Action) (l : List Action)
    (h : l.Pairwise (fun x y => y.priority ≤ x.priority)) :
    (insertDesc a l).Pairwise (fun x y => y.priority ≤ x.priority) := by
  induction l with
  | nil => simp [insertDesc]
  | cons b rest ih =>
    rcases List.pairwise_cons.mp h with ⟨hb, hrest⟩
    unfold insertDesc
    by_cases hab : a.priority < b.priority
    · rw [if_pos hab]
      refine List.pairwise_cons.mpr ⟨?_, ih hrest⟩
      intro y hy
      have hy' : y ∈ a :: rest := (insertDesc_perm a rest).mem_iff.mp hy
      rcases List.mem_cons.mp hy' with rfl | hyr
      · exact Nat.le_of_lt hab
      · exact hb y hyr
    · rw [if_neg hab]
      have hba : b.priority ≤ a.priority := Nat.le_of_not_lt hab
      refine List.pairwise_cons.mpr ⟨?_, h⟩
      intro y hy
      rcases List.mem_cons.mp hy with rfl | hyr
      · exact hba
      · exact Nat.le_trans (hb y hyr) hba

theorem foldr_insertDesc_pairwise (l : List Action) :
    (l.foldr insertDesc []).Pairwise (fun x y => y.priority ≤ x.priority) := by
  induction l with
  | nil => simp
  | cons a rest ih => exact insertDesc_pairwise a _ ih

theorem foldr_insertDesc_perm (l : List Action) :
    List.Perm (l.foldr insertDesc []) l := by
  induction l with
  | nil => exact List.Perm.refl _
  | cons a rest ih =>
    exact List.Perm.trans (insertDesc_perm a _) (List.Perm.cons a ih)

theorem runActions_append (fuel : Nat) (dryRun : Bool)
    (l r : List Action) (fs : FS) :
    runActions fuel dryRun (l ++ r) fs =
      (match runActions fuel dryRun l fs with
       | (fs₁, some e) => (fs₁, some e)
       | (fs₁, none) => runActions fuel dryRun r fs₁) := by
  induction l generalizing fs with
  | nil => rfl
  | cons a rest ih =>
    have hl : runActions fuel dryRun ((a :: rest) ++ r) fs =
        (match performGo fuel dryRun a fs with
         | (fs₁, some e) => (fs₁, some e)
         | (fs₁, none) => runActions fuel dryRun (rest ++ r) fs₁) := rfl
    have hr : runActions fuel dryRun (a :: rest) fs =
        (match performGo fuel dryRun a fs with
         | (fs₁, some e) => (fs₁, some e)
         | (fs₁, none) => runActions fuel dryRun rest fs₁) := rfl
    rw [hl, hr]
    cases hp : performGo fuel dryRun a fs with
    | mk fs₁ oe =>
      cases oe with
      | none => exact ih fs₁
      | some e => rfl

/-- Claim C9: `perform_actions` first resolves the encapsulated actions,
then runs exactly the resolved actions ordered by priority descending
(ties in the deterministic stable mapping order); the list that is run is
sorted by descending priority and is a permutation of the resolved
actions; and running any concatenated schedule aborts at the first action
that raises — the remaining actions are not performed and the state
already reached is kept (no rollback). -/
theorem claim9_perform_all
    (fuel : Nat) (dryRun : Bool) (actions m : AMap) (fs : FS)
    (hres : convertEncapsulatedActions fs actions = .ok m) :
    performActions fuel actions dryRun fs =
      runActions fuel dryRun (prioritizeActions m) fs ∧
    (prioritizeActions m).Pairwise (fun x y => y.priority ≤ x.priority) ∧
    List.Perm (prioritizeActions m) (m.map (·.2)) ∧
    ∀ (l r : List Action) (fs₀ : FS),
      runActions fuel dryRun (l ++ r) fs₀ =
        (match runActions fuel dryRun l fs₀ with
         | (fs₁, some e) => (fs₁, some e)
         | (fs₁, none) => runActions fuel dryRun r fs₁) := by
  refine ⟨?_, foldr_insertDesc_pairwise _, foldr_insertDesc_perm _,
    fun l r fs₀ => runActions_append fuel dryRun l r fs₀⟩
  unfold performActions
  rw [hres]

/-- Witness for C9: the single-declaration mapping copying `a` onto `b`
resolves to itself, and the scheduler facts hold for it concretely. -/
theorem claim9_witness :
    convertEncapsulatedActions twoFiles copyOntoFile = .ok copyOntoFile ∧
    (performActions 5 copyOntoFile false twoFiles =
      runActions 5 false (prioritizeActions copyOntoFile) twoFiles ∧
    (prioritizeActions copyOntoFile).Pairwise
      (fun x y => y.priority ≤ x.priority) ∧
    List.Perm (prioritizeActions copyOntoFile) (copyOntoFile.map (·.2)) ∧
    ∀ (l r : List Action) (fs₀ : FS),
      runActions 5 false (l ++ r) fs₀ =
        (match runActions 5 false l fs₀ with
         | (fs₁, some e) => (fs₁, some e)
         | (fs₁, none) => runActions 5 false r fs₁)) :=
  ⟨rfl, claim9_perform_all 5 false copyOntoFile copyOntoFile twoFiles rfl⟩

end Pygrate
